import Mathlib

/-!
Verification of the unit-extraction-and-normalization pipeline of
`final_filter.py`: token extraction, fuzzy unit matching, unit
normalization, category conversion and entity-based selection.

Python machine floats are modelled by exact rationals (`ℚ`); Python
strings by Lean `String` / `List Char`.  Regular expressions are
modelled by explicit scanners faithful to Python's leftmost, greedy,
backtracking semantics on the character classes the patterns use.
-/

set_option maxHeartbeats 1000000
set_option maxRecDepth 100000

namespace OCRPipeline

/-! Section: Character classes used by the regexes in `final_filter.py` -/

/-- Python `\s` on the ASCII fragment: the six whitespace characters. -/
def isPySpace (c : Char) : Bool :=
  c ∈ [' ', '\t', '\n', '\r', '\x0b', '\x0c']

/-- Python `\w` (word character) restricted to the characters that occur in
the unit vocabulary: ASCII alphanumerics, underscore, and the two non-ASCII
word characters `μ` and `³` appearing in surface forms. -/
def isWordChar (c : Char) : Bool :=
  c.isAlphanum || c == '_' || c == 'μ' || c == '³'

/-- The character class `[0-9.]` of the separation regex. -/
def isNumChar (c : Char) : Bool :=
  c.isDigit || c == '.'

/-! Section: The static tables of `final_filter.py` -/

/-- The dictionary `unit_fullform_to_abbreviation`, in insertion order:
canonical full unit name ↦ list of accepted abbreviations. -/
def unit_fullform_to_abbreviation : List (String × List String) :=
  [("centimetre", ["cm", "centimeter", "centimetres", "centimeters"]),
   ("millimetre", ["mm", "millimeter", "millimetres", "millimeters"]),
   ("metre", ["m", "meter", "meters", "metres"]),
   ("inch", ["in", "inches", "\""]),
   ("foot", ["ft", "feet", "'"]),
   ("yard", ["yd", "yards"]),
   ("gram", ["g", "gm", "gms", "grams"]),
   ("kilogram", ["kg", "kgs", "kilograms"]),
   ("milligram", ["mg", "mgs", "milligrams"]),
   ("microgram", ["mcg", "μg", "micrograms"]),
   ("ounce", ["oz", "ounces"]),
   ("pound", ["lb", "lbs", "pounds"]),
   ("ton", ["t", "tonne", "tonnes", "tons"]),
   ("volt", ["v", "volts"]),
   ("kilovolt", ["kv", "kilovolts"]),
   ("millivolt", ["mv", "millivolts"]),
   ("watt", ["w", "watts"]),
   ("kilowatt", ["kw", "kilowatts"]),
   ("litre", ["l", "liters", "litre", "litres"]),
   ("millilitre", ["ml", "milliliters", "millilitres", "mls"]),
   ("centilitre", ["cl", "centiliters", "centilitres"]),
   ("decilitre", ["dl", "deciliters", "decilitres"]),
   ("cubic foot", ["cu ft", "ft³"]),
   ("cubic inch", ["cu in", "in³"]),
   ("fluid ounce", ["fl oz", "fluid ounces"]),
   ("gallon", ["gal", "gallons"]),
   ("imperial gallon", ["imp gal", "imperial gallons"]),
   ("pint", ["pt", "pints"]),
   ("quart", ["qt", "quarts"]),
   ("microlitre", ["ul", "μl", "microlitres", "microliters"]),
   ("cup", ["cup", "cups"])]

/-- The dictionary `conversion_factors_to_smallest`: canonical unit name ↦
conversion factor to the smallest unit of its category. -/
def conversion_factors_to_smallest : List (String × ℚ) :=
  [("millimetre", 1), ("centimetre", 10), ("metre", 1000), ("inch", 25.4),
   ("foot", 304.8), ("yard", 914.4),
   ("milligram", 1), ("gram", 1000), ("kilogram", 1000000),
   ("microgram", 0.001), ("ounce", 28349.5), ("pound", 453592),
   ("ton", 1000000000),
   ("millivolt", 1), ("volt", 1000), ("kilovolt", 1000000),
   ("millilitre", 1), ("litre", 1000), ("centilitre", 10), ("decilitre", 100),
   ("fluid ounce", 29.5735), ("gallon", 3785.41), ("pint", 473.176),
   ("quart", 946.353),
   ("microlitre", 0.001), ("cubic inch", 16.3871), ("cubic foot", 28316.8),
   ("watt", 1), ("kilowatt", 1000)]

/-- The dictionary `unit_categories`: category name ↦ set (here: list) of
canonical unit names, in insertion order. -/
def unit_categories : List (String × List String) :=
  [("length", ["millimetre", "centimetre", "metre", "inch", "foot", "yard"]),
   ("weight", ["milligram", "gram", "kilogram", "microgram", "ounce",
               "pound", "ton"]),
   ("voltage", ["millivolt", "volt", "kilovolt"]),
   ("volume", ["millilitre", "litre", "centilitre", "decilitre",
               "fluid ounce", "gallon", "pint", "quart", "microlitre",
               "cubic inch", "cubic foot"]),
   ("wattage", ["watt", "kilowatt"])]

/-- The flattened list `all_units` of all unit abbreviations (the dict
VALUES only — canonical keys are not included), used for fuzzy matching. -/
def all_units : List String :=
  unit_fullform_to_abbreviation.flatMap Prod.snd

/-! Section: Fuzzy matching

`rapidfuzz.process.extractOne` is an external library call, not part of
this repository.  Modelled from the spec: the matcher performs approximate
string matching of the raw token against the flattened surface-form set,
accepting only matches whose similarity score on a 0–100 scale is at least
the cutoff (95), where 100 means identical strings; ties are broken by
first-encountered order.  The similarity score is modelled as the
normalized indel similarity `100 · 2·lcs(s,t) / (|s| + |t|)`. -/

/-- Fuelled longest-common-subsequence recursion (structural on the fuel,
so that the kernel can evaluate it). -/
def lcsF : ℕ → List Char → List Char → ℕ
  | 0, _, _ => 0
  | _ + 1, [], _ => 0
  | _ + 1, _ :: _, [] => 0
  | fuel + 1, a :: s, b :: t =>
    if a = b then lcsF fuel s t + 1
    else max (lcsF fuel (a :: s) t) (lcsF fuel s (b :: t))

theorem lcsF_fuel_eq :
    ∀ (f g : ℕ) (s t : List Char), s.length + t.length ≤ f →
      s.length + t.length ≤ g → lcsF f s t = lcsF g s t := by
  intro f
  induction f with
  | zero =>
    intro g s t hf _
    match s, t with
    | [], t => match g with | 0 => rfl | _ + 1 => rfl
    | _ :: _, t => simp at hf
  | succ f ih =>
    intro g s t hf hg
    match s, t with
    | [], t => match g with | 0 => rfl | _ + 1 => rfl
    | a :: s, [] =>
      match g with
      | 0 => simp at hg
      | g + 1 => rfl
    | a :: s, b :: t =>
      match g with
      | 0 => simp at hg
      | g + 1 =>
        simp only [List.length_cons] at hf hg
        rw [lcsF, lcsF]
        by_cases hab : a = b
        · rw [if_pos hab, if_pos hab, ih g s t (by omega) (by omega)]
        · rw [if_neg hab, if_neg hab,
            ih g (a :: s) t (by simp; omega) (by simp; omega),
            ih g s (b :: t) (by simp; omega) (by simp; omega)]

/-- One row update of the standard LCS dynamic program: given the values
`lcs s' t` for every suffix `s'` of `s`, compute the values `lcs s' (b::t)`. -/
def lcsStep (b : Char) : List Char → List ℕ → List ℕ
  | [], _ => [0]
  | a :: s, p0 :: prev =>
    match lcsStep b s prev with
    | cur => (if a = b then prev.headD 0 + 1 else max p0 (cur.headD 0)) :: cur
  | _ :: _, [] => [0]

/-- All rows of the LCS dynamic program: `lcsRows s t` lists `lcs s' t`
for every suffix `s'` of `s`, longest first. -/
def lcsRows (s : List Char) : List Char → List ℕ
  | [] => List.replicate (s.length + 1) 0
  | b :: t => lcsStep b s (lcsRows s t)

theorem lcsF_nil_right : ∀ (f : ℕ) (s : List Char), lcsF f s [] = 0 := by
  intro f s
  match f, s with
  | 0, _ => rfl
  | _ + 1, [] => rfl
  | _ + 1, _ :: _ => rfl

theorem lcsF_nil_left : ∀ (f : ℕ) (t : List Char), lcsF f [] t = 0 := by
  intro f t
  match f with
  | 0 => rfl
  | _ + 1 => rfl

theorem tails_map_headD (f : List Char → ℕ) (l : List Char) :
    (l.tails.map f).headD 0 = f l := by
  cases l with
  | nil => simp [List.tails]
  | cons a l => simp [List.tails_cons]

theorem lcsStep_tails (b : Char) (t : List Char) :
    ∀ s : List Char,
      lcsStep b s (s.tails.map (fun s' => lcsF (s'.length + t.length) s' t))
        = s.tails.map (fun s' => lcsF (s'.length + (b :: t).length) s' (b :: t)) := by
  intro s
  induction s with
  | nil =>
    simp [List.tails, lcsStep, lcsF_nil_left]
  | cons a s ihs =>
    simp only [List.tails_cons, List.map_cons]
    rw [lcsStep]
    rw [ihs]
    congr 1
    rw [tails_map_headD, tails_map_headD]
    simp only [List.length_cons]
    conv_rhs => rw [show s.length + 1 + (t.length + 1) = (s.length + 1 + t.length) + 1 from rfl]
    conv_rhs => rw [lcsF]
    by_cases hab : a = b
    · rw [if_pos hab, if_pos hab]
      rw [lcsF_fuel_eq (s.length + t.length) (s.length + 1 + t.length) s t
        (by omega) (by omega)]
    · rw [if_neg hab, if_neg hab]
      rw [lcsF_fuel_eq (s.length + (t.length + 1)) (s.length + 1 + t.length) s (b :: t)
        (by simp) (by simp; omega)]

theorem lcsRows_tails :
    ∀ (t s : List Char),
      lcsRows s t = s.tails.map (fun s' => lcsF (s'.length + t.length) s' t) := by
  intro t
  induction t with
  | nil =>
    intro s
    rw [lcsRows]
    simp [lcsF_nil_right, List.length_tails, List.map_const]
  | cons b t iht =>
    intro s
    rw [lcsRows, iht s, lcsStep_tails]

/-- Length of a longest common subsequence, computed by the row DP. -/
def lcs (s t : List Char) : ℕ := (lcsRows s t).headD 0

theorem lcs_eq_lcsF (s t : List Char) :
    lcs s t = lcsF (s.length + t.length) s t := by
  rw [lcs, lcsRows_tails, tails_map_headD]


/-- Normalized indel similarity of two strings on the 0–100 scale, as an
exact rational: `200·lcs(s,t) / (|s|+|t|)` (and 100 for two empty strings). -/
def ratioQ (s t : String) : ℚ :=
  if s.data.length + t.data.length = 0 then 100
  else ((200 * lcs s.data t.data : ℕ) : ℚ)
         / ((s.data.length + t.data.length : ℕ) : ℚ)

/-- Numerator of the similarity score of query and choice. -/
def scoreNum (q c : String) : ℕ := 200 * lcs q.data c.data

/-- Denominator of the similarity score of query and choice. -/
def scoreDen (q c : String) : ℕ := q.data.length + c.data.length

/-- Best-scoring choice for a query, the first one on ties (library
iteration order).  Score comparisons `scoreNum y / scoreDen y >
scoreNum b / scoreDen b` are carried out exactly by cross-multiplication
over `ℕ` (see `bestMatch_ratioQ_max`), keeping the function evaluable by
the kernel. -/
def bestMatch (q : String) : List String → Option String
  | [] => none
  | c :: cs =>
    some (cs.foldl (fun b y =>
      if scoreNum q y * scoreDen q b > scoreNum q b * scoreDen q y then y
      else b) c)

/-- Model of `process.extractOne(unit_candidate, all_units, score_cutoff=95)`,
returning the matched choice string (the code uses `results_fuzzy[0]`):
the best-scoring choice if its score is at least 95, otherwise `None`.
`95 ≤ scoreNum/scoreDen` is decided exactly as `95·scoreDen ≤ scoreNum`. -/
def extractOne95 (q : String) (choices : List String) : Option String :=
  match bestMatch q choices with
  | none => none
  | some c => if 95 * scoreDen q c ≤ scoreNum q c then some c else none

/-! Section: Part 1: `extract_numbers_with_units`

The regex `(\d+(\.\d+)?)(\s*)([a-zA-Z]+)` scanned over the text with
`re.findall`.  Since the four character classes involved are pairwise
disjoint where consecutive, greedy maximal munch is faithful (shrinking a
greedy `\d+`/`\.\d+` run exposes a digit, which starts none of the
following pieces). -/

/-- Match the optional fractional part `(\.\d+)?` at the head of a list. -/
def fracSplit (l : List Char) : List Char × List Char :=
  match l with
  | [] => ([], [])
  | c :: r =>
    if c = '.' then
      if (r.takeWhile Char.isDigit).isEmpty then ([], c :: r)
      else ('.' :: r.takeWhile Char.isDigit, r.dropWhile Char.isDigit)
    else ([], c :: r)

/-- Try to match `(\d+(\.\d+)?)(\s*)([a-zA-Z]+)` at the start of `cs`,
returning the number string, the unit-candidate string and the rest. -/
def matchAt (cs : List Char) : Option ((String × String) × List Char) :=
  if (cs.takeWhile Char.isDigit).isEmpty then none
  else if ((((fracSplit (cs.dropWhile Char.isDigit)).2.dropWhile
      isPySpace).takeWhile Char.isAlpha)).isEmpty then none
  else some ((⟨cs.takeWhile Char.isDigit ++ (fracSplit (cs.dropWhile Char.isDigit)).1⟩,
      ⟨((fracSplit (cs.dropWhile Char.isDigit)).2.dropWhile isPySpace).takeWhile Char.isAlpha⟩),
    ((fracSplit (cs.dropWhile Char.isDigit)).2.dropWhile isPySpace).dropWhile Char.isAlpha)

theorem length_take_add_drop (p : Char → Bool) (l : List Char) :
    (l.takeWhile p).length + (l.dropWhile p).length = l.length := by
  rw [← List.length_append, List.takeWhile_append_dropWhile]

theorem length_dropWhile_le (p : Char → Bool) (l : List Char) :
    (l.dropWhile p).length ≤ l.length := by
  have := length_take_add_drop p l
  omega

theorem fracSplit_length_le (l : List Char) : (fracSplit l).2.length ≤ l.length := by
  match l with
  | [] => simp [fracSplit]
  | c :: r =>
    simp only [fracSplit]
    split
    · split
      · simp
      · simpa using Nat.le_succ_of_le (length_dropWhile_le _ _)
    · simp

theorem matchAt_some_length {cs : List Char} {p : String × String}
    {r : List Char} (h : matchAt cs = some (p, r)) : r.length < cs.length := by
  unfold matchAt at h
  split at h
  · exact absurd h (by simp)
  · split at h
    · exact absurd h (by simp)
    · rename_i hds hls
      injection h with h1
      injection h1 with _ h2
      subst h2
      have e1 := length_take_add_drop Char.isDigit cs
      have e2 : (fracSplit (cs.dropWhile Char.isDigit)).2.length
          ≤ (cs.dropWhile Char.isDigit).length := fracSplit_length_le _
      have e3 := length_dropWhile_le isPySpace (fracSplit (cs.dropWhile Char.isDigit)).2
      have e4 := length_take_add_drop Char.isAlpha
        ((fracSplit (cs.dropWhile Char.isDigit)).2.dropWhile isPySpace)
      have hds' : 0 < (cs.takeWhile Char.isDigit).length :=
        List.length_pos.mpr (by simpa using hds)
      have hls' : 0 < ((((fracSplit (cs.dropWhile Char.isDigit)).2.dropWhile
          isPySpace).takeWhile Char.isAlpha)).length :=
        List.length_pos.mpr (by simpa using hls)
      omega

/-- Fuelled scanning loop (structural on the fuel, so that the kernel can
evaluate it); each step consumes at least one character, so fuel equal to
the list length suffices (`scanF_eq_of_fuel`). -/
def scanF : ℕ → List Char → List (String × String)
  | 0, _ => []
  | _ + 1, [] => []
  | fuel + 1, c :: cs =>
    match matchAt (c :: cs) with
    | some (p, r) => p :: scanF fuel r
    | none => scanF fuel cs

/-- Model of `re.findall(pattern, text)`: scan left to right, emitting
non-overlapping leftmost matches. -/
def scan (cs : List Char) : List (String × String) := scanF cs.length cs

/-- With enough fuel, the fuelled scan is fuel-independent. -/
theorem scanF_eq_of_fuel :
    ∀ (f g : ℕ) (cs : List Char), cs.length ≤ f → cs.length ≤ g →
      scanF f cs = scanF g cs := by
  intro f
  induction f with
  | zero =>
    intro g cs hf _
    match cs with
    | [] => match g with | 0 => rfl | _ + 1 => rfl
    | _ :: _ => simp at hf
  | succ f ih =>
    intro g cs hf hg
    match cs with
    | [] => match g with | 0 => rfl | _ + 1 => rfl
    | c :: cs' =>
      match g with
      | 0 => simp at hg
      | g + 1 =>
        simp only [List.length_cons] at hf hg
        simp only [scanF]
        cases hm : matchAt (c :: cs') with
        | none => exact ih g cs' (by omega) (by omega)
        | some pr =>
          obtain ⟨p, r⟩ := pr
          have hr := matchAt_some_length hm
          simp only [List.length_cons] at hr
          dsimp only
          rw [ih g r (by omega) (by omega)]

/-- Model of `extract_numbers_with_units`: regex scan, fuzzy-match each unit
candidate against `all_units` with cutoff 95, keep `f"{number} {unit}"`
strings for accepted matches. -/
def extract_numbers_with_units (text : String) : List String :=
  (scan text.data).filterMap fun p =>
    (extractOne95 p.2 all_units).map fun mu => p.1 ++ " " ++ mu

/-! Section: Part 2: `separate_numbers_and_units`

Each extracted item is re-parsed with `re.match(r'([0-9.]+)\s*(\w+)', item)`.
Here `[0-9.]+` (greedy) and `\w+` overlap on digits, so the regex engine
backtracks: the longest `[0-9.]+` prefix is tried first, then successively
shorter nonempty prefixes, until `\s*\w+` matches the remainder.  (`\s*` is
maximal without loss: a whitespace character is never a word character.) -/

/-- Attempt `\s*(\w+)` on `rest`, pairing with the number candidate `num`. -/
def sepTryNum (num rest : List Char) : Option (String × String) :=
  if ((rest.dropWhile isPySpace).takeWhile isWordChar).isEmpty then none
  else some (⟨num⟩, ⟨(rest.dropWhile isPySpace).takeWhile isWordChar⟩)

/-- Backtracking over the `[0-9.]+` group, longest prefix first.  The first
argument is the reversed number candidate; giving back its head character
shortens the number by one from the right. -/
def sepGoRev : List Char → List Char → Option (String × String)
  | [], _ => none
  | c :: rev, rest =>
    match sepTryNum (c :: rev).reverse rest with
    | some p => some p
    | none => sepGoRev rev (c :: rest)

/-- Model of `re.match(r'([0-9.]+)\s*(\w+)', item)`, returning the two
captured groups. -/
def sepMatch (s : String) : Option (String × String) :=
  sepGoRev (s.data.takeWhile isNumChar).reverse (s.data.dropWhile isNumChar)

/-- Model of `separate_numbers_and_units`: split each extracted item back into its
number and unit strings, silently skipping items the regex rejects. -/
def separate_numbers_and_units (output : List String) :
    List String × List String :=
  ((output.filterMap sepMatch).map Prod.fst,
   (output.filterMap sepMatch).map Prod.snd)

/-! Section: Part 3: `get_full_unit` and `convert_to_full_unit` -/

/-- Python `str.strip()` on the modelled whitespace class. -/
def pyStrip (cs : List Char) : List Char :=
  ((cs.dropWhile isPySpace).reverse.dropWhile isPySpace).reverse

/-- Collapse every whitespace run to a single space
(`re.sub(r'\s+', ' ', ·)`); the flag records whether the previous
character was part of a whitespace run. -/
def collapseWS : Bool → List Char → List Char
  | _, [] => []
  | prevSp, c :: cs =>
    if isPySpace c then
      if prevSp then collapseWS true cs else ' ' :: collapseWS true cs
    else c :: collapseWS false cs

/-- Python `str.lower()` on the ASCII fragment (every vocabulary surface
form is already lowercase, so only ASCII letters matter here). -/
def pyLowerChar (c : Char) : Char :=
  if 'A' ≤ c ∧ c ≤ 'Z' then Char.ofNat (c.toNat + 32) else c

/-- The input cleaning of `get_full_unit`:
`re.sub(r'\s+', ' ', unit_input.lower().strip())`. -/
def cleanUnit (s : String) : String :=
  ⟨collapseWS false (pyStrip (s.data.map pyLowerChar))⟩

/-- The lookup loop of `get_full_unit` over the vocabulary in insertion
order: first entry whose canonical name or abbreviation list claims the
cleaned input. -/
def lookupOwnerAux : List (String × List String) → String → String
  | [], _ => ""
  | (fu, abbrs) :: rest, t =>
    if t = fu ∨ t ∈ abbrs then fu else lookupOwnerAux rest t

/-- Model of `get_full_unit`: convert a unit abbreviation to its full form, or the
empty string if no entry claims it. -/
def get_full_unit (unit_input : String) : String :=
  lookupOwnerAux unit_fullform_to_abbreviation (cleanUnit unit_input)

/-- Model of `convert_to_full_unit`: extract, separate, normalize each unit to its
full form, and format `f"{num} {unit}"` pairs. -/
def convert_to_full_unit (input_text : String) :
    List String × List String × List String :=
  ((List.zipWith (fun num unit => num ++ " " ++ unit)
      (separate_numbers_and_units (extract_numbers_with_units input_text)).1
      ((separate_numbers_and_units (extract_numbers_with_units input_text)).2.map
        get_full_unit)),
   (separate_numbers_and_units (extract_numbers_with_units input_text)).1,
   (separate_numbers_and_units (extract_numbers_with_units input_text)).2.map
     get_full_unit)

/-! Section: Part 4: `categorize_values`

`float(num)` can raise `ValueError`, and a missing conversion factor would
raise `KeyError`; a raised exception is modelled by `none` at the
`categorize_values` level.  `float` is modelled on the fragment its call
sites feed it: an optionally signed decimal string without exponent. -/

/-- Numeric value of a list of decimal digits. -/
def natVal (ds : List Char) : ℕ :=
  ds.foldl (fun acc c => 10 * acc + (c.toNat - '0'.toNat)) 0

/-- Modelled from the spec: the syntactic part of Python `float(s)` ("parse
`number` as a real value") on optionally signed decimal strings (no
exponent, which never occurs in this pipeline).  Returns the sign flag,
the integer digits and the fraction digits; `none` models `ValueError`. -/
def pyFloatParts (s : String) : Option (Bool × List Char × List Char) :=
  match pyStrip s.data with
  | [] => none
  | cs =>
    match (if cs.head? = some '+' ∨ cs.head? = some '-' then cs.tail else cs) with
    | [] => none
    | body =>
      match body.dropWhile Char.isDigit with
      | [] => some (cs.head? = some '-', body.takeWhile Char.isDigit, [])
      | '.' :: fr =>
        if (fr.dropWhile Char.isDigit).isEmpty ∧
            ¬ ((body.takeWhile Char.isDigit).isEmpty ∧
               (fr.takeWhile Char.isDigit).isEmpty) then
          some (cs.head? = some '-', body.takeWhile Char.isDigit,
            fr.takeWhile Char.isDigit)
        else none
      | _ => none

/-- The rational value of parsed float parts. -/
def partsVal (p : Bool × List Char × List Char) : ℚ :=
  (if p.1 then -1 else 1)
    * ((natVal p.2.1 : ℚ) + (natVal p.2.2 : ℚ) / ((10 : ℚ) ^ p.2.2.length))

/-- Python `float(s)` as an exact rational; `none` models `ValueError`. -/
def pyFloat (s : String) : Option ℚ :=
  (pyFloatParts s).map partsVal

/-- The per-category mapping `categorized_values`, a dict with exactly the
five fixed keys. -/
structure Categorized where
  length : List (ℚ × String)
  weight : List (ℚ × String)
  voltage : List (ℚ × String)
  volume : List (ℚ × String)
  wattage : List (ℚ × String)
deriving DecidableEq, Repr

/-- The empty categorized mapping the loop starts from. -/
def emptyCategorized : Categorized := ⟨[], [], [], [], []⟩

/-- Append a converted value to the list of the named category. -/
def addTo (cv : Categorized) (cat : String) (v : ℚ × String) : Categorized :=
  if cat = "length" then { cv with length := cv.length ++ [v] }
  else if cat = "weight" then { cv with weight := cv.weight ++ [v] }
  else if cat = "voltage" then { cv with voltage := cv.voltage ++ [v] }
  else if cat = "volume" then { cv with volume := cv.volume ++ [v] }
  else if cat = "wattage" then { cv with wattage := cv.wattage ++ [v] }
  else cv

/-- Inner loop of `categorize_values` over `unit_categories.items()` for a
single `(num, unit)` pair; `none` models a raised exception. -/
def procCats : List (String × List String) → Categorized → String × String →
    Option Categorized
  | [], cv, _ => some cv
  | (cat, uset) :: rest, cv, nu =>
    if nu.2 ∈ uset then
      match pyFloat nu.1, conversion_factors_to_smallest.lookup nu.2 with
      | some v, some f =>
        procCats rest (addTo cv cat (v * f, nu.1 ++ " " ++ nu.2)) nu
      | _, _ => none
    else procCats rest cv nu

/-- Outer loop of `categorize_values` over `zip(numbers, result)`. -/
def catGo : List (String × String) → Categorized → Option Categorized
  | [], cv => some cv
  | nu :: rest, cv =>
    match procCats unit_categories cv nu with
    | none => none
    | some cv' => catGo rest cv'

/-- Model of `categorize_values`: categorize and convert each value to its smallest
unit; `none` models a raised exception. -/
def categorize_values (numbers result : List String) : Option Categorized :=
  catGo (numbers.zip result) emptyCategorized

/-! Section: Part 5: `get_entity_value` -/

/-- Python `max(l, key=lambda x: x[0])`: first element with maximal key. -/
def pyMaxByFst (l : List (ℚ × String)) : Option (ℚ × String) :=
  match l with
  | [] => none
  | x :: xs => some (xs.foldl (fun b y => if y.1 > b.1 then y else b) x)

/-- Python `min(l, key=lambda x: x[0])`: first element with minimal key. -/
def pyMinByFst (l : List (ℚ × String)) : Option (ℚ × String) :=
  match l with
  | [] => none
  | x :: xs => some (xs.foldl (fun b y => if y.1 < b.1 then y else b) x)

/-- Model of `get_entity_value`: the if/elif chain selecting the display string of
the extremal converted value for the requested entity. -/
def get_entity_value (entity_value : String) (cv : Categorized) :
    Option String :=
  if (entity_value = "item_weight" ∨
      entity_value = "maximum_weight_recommendation") ∧ cv.weight ≠ [] then
    (pyMaxByFst cv.weight).map Prod.snd
  else if entity_value = "voltage" ∧ cv.voltage ≠ [] then
    (pyMaxByFst cv.voltage).map Prod.snd
  else if entity_value = "item_volume" ∧ cv.volume ≠ [] then
    (pyMaxByFst cv.volume).map Prod.snd
  else if entity_value = "wattage" ∧ cv.wattage ≠ [] then
    (pyMaxByFst cv.wattage).map Prod.snd
  else if (entity_value = "width" ∨ entity_value = "depth" ∨
      entity_value = "height") ∧ cv.length ≠ [] then
    if entity_value = "width" then (pyMinByFst cv.length).map Prod.snd
    else (pyMaxByFst cv.length).map Prod.snd
  else none

/-! Section: The whole pipeline as used by `final_main.py` -/

/-- One pipeline invocation: `convert_to_full_unit` then
`categorize_values` then `get_entity_value`.  The outer `Option` models a
raised exception; the inner `Option` is the explicit absence value. -/
def pipeline (text entity : String) : Option (Option String) :=
  (categorize_values (convert_to_full_unit text).2.1
    (convert_to_full_unit text).2.2).map (get_entity_value entity)

/-! Section: Step lemmas for concrete evaluation of `categorize_values` -/

theorem procCats_mem {cat : String} {uset : List String}
    {rest : List (String × List String)} {cv : Categorized} {n u : String}
    {v f : ℚ} (h : u ∈ uset) (hv : pyFloat n = some v)
    (hf : conversion_factors_to_smallest.lookup u = some f) :
    procCats ((cat, uset) :: rest) cv (n, u)
      = procCats rest (addTo cv cat (v * f, n ++ " " ++ u)) (n, u) := by
  simp only [procCats]
  rw [if_pos h, hv, hf]

theorem procCats_not_mem {cat : String} {uset : List String}
    {rest : List (String × List String)} {cv : Categorized}
    {nu : String × String} (h : nu.2 ∉ uset) :
    procCats ((cat, uset) :: rest) cv nu = procCats rest cv nu := by
  simp only [procCats]
  rw [if_neg h]

theorem pyFloat_two_point_five : pyFloat "2.5" = some (5 / 2 : ℚ) := by
  have h1 : pyFloatParts "2.5" = some (false, ['2'], ['5']) := by decide
  have h2 : natVal ['2'] = 2 := by decide
  have h3 : natVal ['5'] = 5 := by decide
  rw [pyFloat, h1]
  simp [partsVal, h2, h3]
  norm_num

theorem pyFloat_zero : pyFloat "0" = some (0 : ℚ) := by
  have h1 : pyFloatParts "0" = some (false, ['0'], []) := by decide
  have h2 : natVal ['0'] = 0 := by decide
  rw [pyFloat, h1]
  simp [partsVal, h2, natVal]

theorem categorize_two_point_five_kilogram :
    categorize_values ["2.5"] ["kilogram"]
      = some ⟨[], [(2500000, "2.5 kilogram")], [], [], []⟩ := by
  have hp : procCats unit_categories emptyCategorized ("2.5", "kilogram")
      = some ⟨[], [(2500000, "2.5 kilogram")], [], [], []⟩ := by
    rw [unit_categories]
    rw [procCats_not_mem (by decide)]
    rw [procCats_mem (by decide) pyFloat_two_point_five
      (show conversion_factors_to_smallest.lookup "kilogram" = some 1000000 by decide)]
    rw [procCats_not_mem (by decide)]
    rw [procCats_not_mem (by decide)]
    rw [procCats_not_mem (by decide)]
    rw [procCats]
    rw [addTo, if_neg (by decide), if_pos (by decide)]
    rw [emptyCategorized]
    have hs : "2.5" ++ " " ++ "kilogram" = "2.5 kilogram" := by decide
    rw [hs]
    norm_num
  show catGo [("2.5", "kilogram")] emptyCategorized = _
  simp only [catGo, hp]

/-! Section: Claim theorems -/

/-- C1: for the input text "Net Wt 2.5 kg approx" and entity name
"item_weight", the pipeline extracts the pair ("2.5", "kg"), normalizes it
to canonical unit "kilogram", converts it to base value 2500000 on the
milligram scale, and selection returns exactly the string "2.5 kilogram". -/
theorem C1_end_to_end :
    scan "Net Wt 2.5 kg approx".data = [("2.5", "kg")] ∧
    extract_numbers_with_units "Net Wt 2.5 kg approx" = ["2.5 kg"] ∧
    get_full_unit "kg" = "kilogram" ∧
    convert_to_full_unit "Net Wt 2.5 kg approx"
      = (["2.5 kilogram"], ["2.5"], ["kilogram"]) ∧
    categorize_values ["2.5"] ["kilogram"]
      = some ⟨[], [(2500000, "2.5 kilogram")], [], [], []⟩ ∧
    pipeline "Net Wt 2.5 kg approx" "item_weight" = some (some "2.5 kilogram") := by
  refine ⟨by decide, by decide, by decide, by decide,
    categorize_two_point_five_kilogram, ?_⟩
  rw [pipeline,
    show convert_to_full_unit "Net Wt 2.5 kg approx"
      = (["2.5 kilogram"], ["2.5"], ["kilogram"]) by decide]
  rw [show (((["2.5 kilogram"], ["2.5"], ["kilogram"])
      : List String × List String × List String)).2.1 = ["2.5"] from rfl]
  rw [show (((["2.5 kilogram"], ["2.5"], ["kilogram"])
      : List String × List String × List String)).2.2 = ["kilogram"] from rfl]
  rw [categorize_two_point_five_kilogram]
  rw [Option.map_some']
  rw [show get_entity_value "item_weight" ⟨[], [(2500000, "2.5 kilogram")], [], [], []⟩
      = some "2.5 kilogram" by decide]

/-- Skipping every category leaves the categorized mapping unchanged. -/
theorem procCats_skip_all :
    ∀ (cats : List (String × List String)) (cv : Categorized)
      (nu : String × String), (∀ p ∈ cats, nu.2 ∉ p.2) →
      procCats cats cv nu = some cv := by
  intro cats
  induction cats with
  | nil => intro cv nu _; rfl
  | cons p rest ih =>
    intro cv nu h
    obtain ⟨cat, uset⟩ := p
    rw [procCats_not_mem (h _ (List.mem_cons_self _ _))]
    exact ih cv nu fun q hq => h q (List.mem_cons_of_mem _ hq)

/-- Dropping a pair whose unit belongs to no category, at any position of
the paired list, leaves the categorize loop's result unchanged. -/
theorem catGo_drop (n u : String)
    (h : ∀ p ∈ unit_categories, u ∉ p.2) :
    ∀ (pre post : List (String × String)) (cv : Categorized),
      catGo (pre ++ (n, u) :: post) cv = catGo (pre ++ post) cv := by
  intro pre
  induction pre with
  | nil =>
    intro post cv
    show catGo ((n, u) :: post) cv = catGo post cv
    simp only [catGo, procCats_skip_all unit_categories cv (n, u) h]
  | cons q qre ih =>
    intro post cv
    rw [List.cons_append, List.cons_append]
    simp only [catGo]
    cases procCats unit_categories cv q with
    | none => rfl
    | some cv2 => exact ih post cv2

/-- Variant of `procCats_not_mem` with the pair given componentwise. -/
theorem procCats_nmem {cat : String} {uset : List String}
    {rest : List (String × List String)} {cv : Categorized} {n u : String}
    (h : u ∉ uset) :
    procCats ((cat, uset) :: rest) cv (n, u) = procCats rest cv (n, u) :=
  procCats_not_mem h

/-- A length unit belongs to none of the other four category sets. -/
theorem lenSet_disj : ∀ u ∈ ["millimetre", "centimetre", "metre", "inch",
    "foot", "yard"],
    u ∉ ["milligram", "gram", "kilogram", "microgram", "ounce", "pound",
      "ton"] ∧
    u ∉ ["millivolt", "volt", "kilovolt"] ∧
    u ∉ ["millilitre", "litre", "centilitre", "decilitre", "fluid ounce",
      "gallon", "pint", "quart", "microlitre", "cubic inch", "cubic foot"] ∧
    u ∉ ["watt", "kilowatt"] := by decide

/-- A weight unit belongs to none of the other four category sets. -/
theorem wtSet_disj : ∀ u ∈ ["milligram", "gram", "kilogram", "microgram",
    "ounce", "pound", "ton"],
    u ∉ ["millimetre", "centimetre", "metre", "inch", "foot", "yard"] ∧
    u ∉ ["millivolt", "volt", "kilovolt"] ∧
    u ∉ ["millilitre", "litre", "centilitre", "decilitre", "fluid ounce",
      "gallon", "pint", "quart", "microlitre", "cubic inch", "cubic foot"] ∧
    u ∉ ["watt", "kilowatt"] := by decide

/-- A voltage unit belongs to none of the other four category sets. -/
theorem vltSet_disj : ∀ u ∈ ["millivolt", "volt", "kilovolt"],
    u ∉ ["millimetre", "centimetre", "metre", "inch", "foot", "yard"] ∧
    u ∉ ["milligram", "gram", "kilogram", "microgram", "ounce", "pound",
      "ton"] ∧
    u ∉ ["millilitre", "litre", "centilitre", "decilitre", "fluid ounce",
      "gallon", "pint", "quart", "microlitre", "cubic inch", "cubic foot"] ∧
    u ∉ ["watt", "kilowatt"] := by decide

/-- A volume unit belongs to none of the other four category sets. -/
theorem volSet_disj : ∀ u ∈ ["millilitre", "litre", "centilitre",
    "decilitre", "fluid ounce", "gallon", "pint", "quart", "microlitre",
    "cubic inch", "cubic foot"],
    u ∉ ["millimetre", "centimetre", "metre", "inch", "foot", "yard"] ∧
    u ∉ ["milligram", "gram", "kilogram", "microgram", "ounce", "pound",
      "ton"] ∧
    u ∉ ["millivolt", "volt", "kilovolt"] ∧
    u ∉ ["watt", "kilowatt"] := by decide

/-- A wattage unit belongs to none of the other four category sets. -/
theorem watSet_disj : ∀ u ∈ ["watt", "kilowatt"],
    u ∉ ["millimetre", "centimetre", "metre", "inch", "foot", "yard"] ∧
    u ∉ ["milligram", "gram", "kilogram", "microgram", "ounce", "pound",
      "ton"] ∧
    u ∉ ["millivolt", "volt", "kilovolt"] ∧
    u ∉ ["millilitre", "litre", "centilitre", "decilitre", "fluid ounce",
      "gallon", "pint", "quart", "microlitre", "cubic inch", "cubic foot"]
    := by decide

/-- Every categorized canonical unit has a conversion factor. -/
theorem factor_present : ∀ p ∈ unit_categories, ∀ u ∈ p.2,
    (conversion_factors_to_smallest.lookup u).isSome = true := by decide

/-- Full characterization of the inner categorize loop on a categorized
pair: the pair's Measurement is appended to its (unique) category, for any
running accumulator. -/
theorem procCats_categorized (cv : Categorized) (cat : String)
    (uset : List String) (n u : String) (v f : ℚ)
    (hmem : (cat, uset) ∈ unit_categories) (hu : u ∈ uset)
    (hv : pyFloat n = some v)
    (hf : conversion_factors_to_smallest.lookup u = some f) :
    procCats unit_categories cv (n, u)
      = some (addTo cv cat (v * f, n ++ " " ++ u)) := by
  simp only [unit_categories, List.mem_cons, List.not_mem_nil, or_false,
    Prod.mk.injEq] at hmem
  rcases hmem with ⟨rfl, rfl⟩ | ⟨rfl, rfl⟩ | ⟨rfl, rfl⟩ | ⟨rfl, rfl⟩
    | ⟨rfl, rfl⟩
  · obtain ⟨h1, h2, h3, h4⟩ := lenSet_disj u hu
    rw [unit_categories, procCats_mem hu hv hf, procCats_nmem h1,
      procCats_nmem h2, procCats_nmem h3, procCats_nmem h4]
    rfl
  · obtain ⟨h1, h2, h3, h4⟩ := wtSet_disj u hu
    rw [unit_categories, procCats_nmem h1, procCats_mem hu hv hf,
      procCats_nmem h2, procCats_nmem h3, procCats_nmem h4]
    rfl
  · obtain ⟨h1, h2, h3, h4⟩ := vltSet_disj u hu
    rw [unit_categories, procCats_nmem h1, procCats_nmem h2,
      procCats_mem hu hv hf, procCats_nmem h3, procCats_nmem h4]
    rfl
  · obtain ⟨h1, h2, h3, h4⟩ := volSet_disj u hu
    rw [unit_categories, procCats_nmem h1, procCats_nmem h2,
      procCats_nmem h3, procCats_mem hu hv hf, procCats_nmem h4]
    rfl
  · obtain ⟨h1, h2, h3, h4⟩ := watSet_disj u hu
    rw [unit_categories, procCats_nmem h1, procCats_nmem h2,
      procCats_nmem h3, procCats_nmem h4, procCats_mem hu hv hf]
    rfl

/-- The categorize loop on the zero-magnitude weight pair. -/
theorem categorize_zero_kilogram :
    categorize_values ["0"] ["kilogram"]
      = some ⟨[], [(0, "0 kilogram")], [], [], []⟩ := by
  have hp : procCats unit_categories emptyCategorized ("0", "kilogram")
      = some ⟨[], [(0, "0 kilogram")], [], [], []⟩ := by
    rw [unit_categories]
    rw [procCats_not_mem (by decide)]
    rw [procCats_mem (by decide) pyFloat_zero
      (show conversion_factors_to_smallest.lookup "kilogram" = some 1000000 by decide)]
    rw [procCats_not_mem (by decide)]
    rw [procCats_not_mem (by decide)]
    rw [procCats_not_mem (by decide)]
    rw [procCats]
    rw [addTo, if_neg (by decide), if_pos (by decide)]
    rw [emptyCategorized]
    have hs : "0" ++ " " ++ "kilogram" = "0 kilogram" := by decide
    rw [hs]
    norm_num
  show catGo [("0", "kilogram")] emptyCategorized = _
  simp only [catGo, hp]

/-- C4 counterexample: a pair whose number is "0" DOES produce a
Measurement — `categorize_values(["0"], ["kilogram"])` appends the
zero-magnitude Measurement `(0, "0 kilogram")` to the weight list, so not
every appended Measurement has strictly positive magnitude. -/
theorem C4_counterexample :
    categorize_values ["0"] ["kilogram"]
        = some ⟨[], [(0, "0 kilogram")], [], [], []⟩ ∧
    categorize_values ["0"] ["kilogram"] ≠ some emptyCategorized := by
  refine ⟨categorize_zero_kilogram, ?_⟩
  rw [categorize_zero_kilogram]
  intro h
  injection h with h
  have := congrArg Categorized.weight h
  simp [emptyCategorized] at this

/-- C4 amended: over every list of (number, canonical_unit) pairs the
converter silently drops a pair whose unit belongs to no category (the
result equals that on the list with the pair removed), while a categorized
pair whose number parses always yields a Measurement — at any point of the
loop its converted value times the category factor is appended to its
category, with magnitude zero included.  In particular the pair
("0", "kilogram") produces the Measurement `(0, "0 kilogram")`. -/
theorem C4_amended :
    (∀ (nums1 nums2 units1 units2 : List String) (n u : String),
        nums1.length = units1.length →
        (∀ p ∈ unit_categories, u ∉ p.2) →
        categorize_values (nums1 ++ n :: nums2) (units1 ++ u :: units2)
          = categorize_values (nums1 ++ nums2) (units1 ++ units2)) ∧
    (∀ (cv : Categorized) (rest : List (String × String)) (cat : String)
        (uset : List String) (n u : String) (v : ℚ),
        (cat, uset) ∈ unit_categories → u ∈ uset → pyFloat n = some v →
        ∃ f : ℚ, conversion_factors_to_smallest.lookup u = some f ∧
          catGo ((n, u) :: rest) cv
            = catGo rest (addTo cv cat (v * f, n ++ " " ++ u))) ∧
    categorize_values ["0"] ["kilogram"]
      = some ⟨[], [(0, "0 kilogram")], [], [], []⟩ := by
  refine ⟨?_, ?_, categorize_zero_kilogram⟩
  · intro nums1 nums2 units1 units2 n u hlen h
    show catGo ((nums1 ++ n :: nums2).zip (units1 ++ u :: units2))
        emptyCategorized
      = catGo ((nums1 ++ nums2).zip (units1 ++ units2)) emptyCategorized
    rw [List.zip_append hlen, List.zip_append hlen, List.zip_cons_cons]
    exact catGo_drop n u h (nums1.zip units1) (nums2.zip units2)
      emptyCategorized
  · intro cv rest cat uset n u v hmem hu hv
    obtain ⟨f, hf⟩ := Option.isSome_iff_exists.mp
      (factor_present (cat, uset) hmem u hu)
    refine ⟨f, hf, ?_⟩
    simp only [catGo, procCats_categorized cv cat uset n u v f hmem hu hv hf]

/-- Witness for C4 amended: the uncategorized pair ("1", "banana") is
dropped from inside a longer list, and the zero-magnitude pair
("0", "kilogram") appends its Measurement mid-list. -/
theorem C4_amended_witness :
    categorize_values ["2.5", "1"] ["kilogram", "banana"]
      = categorize_values ["2.5"] ["kilogram"] ∧
    ∃ f : ℚ, conversion_factors_to_smallest.lookup "kilogram" = some f ∧
      catGo [("0", "kilogram"), ("7", "volt")] emptyCategorized
        = catGo [("7", "volt")]
            (addTo emptyCategorized "weight"
              (0 * f, "0" ++ " " ++ "kilogram")) := by
  refine ⟨?_, ?_⟩
  · exact C4_amended.1 ["2.5"] [] ["kilogram"] [] "1" "banana"
      (by decide) (by decide)
  · exact C4_amended.2.1 emptyCategorized [("7", "volt")] "weight"
      ["milligram", "gram", "kilogram", "microgram", "ounce", "pound", "ton"]
      "0" "kilogram" 0 (by decide) (by decide) pyFloat_zero

/-- C5 counterexample: the canonical unit name "kilogram" is a canonical
name of the vocabulary yet is NOT a member of the flattened candidate list
`all_units` the matcher compares raw tokens against (the flattening takes
only the abbreviation lists, not the dict keys). -/
theorem C5_counterexample :
    "kilogram" ∈ unit_fullform_to_abbreviation.map Prod.fst ∧
    "kilogram" ∉ all_units := by decide

/-- C5 amended: a canonical unit name is a member of the flattened
candidate set only when it is listed among its own abbreviations, as
"litre" and "cup" are; "kilogram" and "metre" are not members.  A raw
token exactly equal to such a member canonical name is accepted by the
matcher. -/
theorem C5_amended :
    ("litre" ∈ all_units ∧ "cup" ∈ all_units) ∧
    ("kilogram" ∉ all_units ∧ "metre" ∉ all_units) ∧
    extractOne95 "cup" all_units = some "cup" ∧
    extractOne95 "litre" all_units = some "litre" := by decide

/-! Section: The Entity Selection Rule as explicit data (spec section 3), used to
state the selection and absence claims about `get_entity_value` -/

/-- The Entity Selection Rule: entity name, category, take-minimum flag. -/
def selectionRule : List (String × String × Bool) :=
  [("item_weight", "weight", false),
   ("maximum_weight_recommendation", "weight", false),
   ("voltage", "voltage", false),
   ("item_volume", "volume", false),
   ("wattage", "wattage", false),
   ("width", "length", true),
   ("depth", "length", false),
   ("height", "length", false)]

/-- The Measurement list of the named category. -/
def getCat (cat : String) (cv : Categorized) : List (ℚ × String) :=
  if cat = "length" then cv.length
  else if cat = "weight" then cv.weight
  else if cat = "voltage" then cv.voltage
  else if cat = "volume" then cv.volume
  else if cat = "wattage" then cv.wattage
  else []


def maxFstOf (l : List (ℚ × String)) : ℚ :=
  match l with
  | [] => 0
  | x :: xs => xs.foldl (fun m y => max m y.1) x.1

def minFstOf (l : List (ℚ × String)) : ℚ :=
  match l with
  | [] => 0
  | x :: xs => xs.foldl (fun m y => min m y.1) x.1

theorem le_foldMax (ys : List (ℚ × String)) (a : ℚ) :
    a ≤ ys.foldl (fun m y => max m y.1) a := by
  induction ys generalizing a with
  | nil => exact le_refl a
  | cons y ys ih => exact le_trans (le_max_left a y.1) (ih (max a y.1))

theorem foldMin_le (ys : List (ℚ × String)) (a : ℚ) :
    ys.foldl (fun m y => min m y.1) a ≤ a := by
  induction ys generalizing a with
  | nil => exact le_refl a
  | cons y ys ih => exact le_trans (ih (min a y.1)) (min_le_left a y.1)

theorem foldMax_find :
    ∀ (xs : List (ℚ × String)) (x : ℚ × String),
      (x :: xs).find? (fun p => decide (p.1 = maxFstOf (x :: xs)))
          = some (xs.foldl (fun b y => if y.1 > b.1 then y else b) x) ∧
      (xs.foldl (fun b y => if y.1 > b.1 then y else b) x).1 = maxFstOf (x :: xs) := by
  intro xs
  induction xs with
  | nil =>
    intro x
    constructor
    · rw [List.find?_cons_of_pos _ (by simp [maxFstOf])]
      simp
    · simp [maxFstOf]
  | cons y ys ih =>
    intro x
    have hstep : ((if y.1 > x.1 then y else x) : ℚ × String).1 = max x.1 y.1 := by
      by_cases h : y.1 > x.1
      · rw [if_pos h, max_eq_right (le_of_lt h)]
      · rw [if_neg h, max_eq_left (le_of_not_lt h)]
    have hMeq : maxFstOf (x :: y :: ys) = maxFstOf ((if y.1 > x.1 then y else x) :: ys) := by
      simp only [maxFstOf, List.foldl_cons, hstep]
    have hfold : (y :: ys).foldl (fun b y => if y.1 > b.1 then y else b) x
        = ys.foldl (fun b y => if y.1 > b.1 then y else b) (if y.1 > x.1 then y else x) := by
      simp only [List.foldl_cons]
    obtain ⟨ihf, ihm⟩ := ih (if y.1 > x.1 then y else x)
    refine ⟨?_, ?_⟩
    · rw [hfold, hMeq]
      by_cases hxy : y.1 > x.1
      · have hxne : ¬ (x.1 = maxFstOf ((if y.1 > x.1 then y else x) :: ys)) := by
          rw [if_pos hxy]
          intro hx
          have : y.1 ≤ maxFstOf (y :: ys) := by
            simpa [maxFstOf] using le_foldMax ys y.1
          exact absurd (hx ▸ this) (not_le_of_lt hxy)
        rw [List.find?_cons_of_neg _ (by simpa using hxne)]
        rw [if_pos hxy] at ihf ⊢
        exact ihf
      · rw [if_neg hxy] at ihf ⊢
        by_cases hx : x.1 = maxFstOf (x :: ys)
        · rw [List.find?_cons_of_pos _ (by simpa using hx)]
          rw [List.find?_cons_of_pos _ (by simpa using hx)] at ihf
          exact ihf
        · rw [List.find?_cons_of_neg _ (by simpa using hx)]
          rw [List.find?_cons_of_neg _ (by simpa using hx)] at ihf
          have hxM : x.1 ≤ maxFstOf (x :: ys) := by
            simpa [maxFstOf] using le_foldMax ys x.1
          have hyne : ¬ (y.1 = maxFstOf (x :: ys)) := by
            intro hy
            have hyx : y.1 ≤ x.1 := le_of_not_lt hxy
            exact hx (le_antisymm hxM (hy ▸ hyx))
          rw [List.find?_cons_of_neg _ (by simpa using hyne)]
          exact ihf
    · rw [hfold, hMeq]
      exact ihm

theorem foldMin_find :
    ∀ (xs : List (ℚ × String)) (x : ℚ × String),
      (x :: xs).find? (fun p => decide (p.1 = minFstOf (x :: xs)))
          = some (xs.foldl (fun b y => if y.1 < b.1 then y else b) x) ∧
      (xs.foldl (fun b y => if y.1 < b.1 then y else b) x).1 = minFstOf (x :: xs) := by
  intro xs
  induction xs with
  | nil =>
    intro x
    constructor
    · rw [List.find?_cons_of_pos _ (by simp [minFstOf])]
      simp
    · simp [minFstOf]
  | cons y ys ih =>
    intro x
    have hstep : ((if y.1 < x.1 then y else x) : ℚ × String).1 = min x.1 y.1 := by
      by_cases h : y.1 < x.1
      · rw [if_pos h, min_eq_right (le_of_lt h)]
      · rw [if_neg h, min_eq_left (le_of_not_lt h)]
    have hMeq : minFstOf (x :: y :: ys) = minFstOf ((if y.1 < x.1 then y else x) :: ys) := by
      simp only [minFstOf, List.foldl_cons, hstep]
    have hfold : (y :: ys).foldl (fun b y => if y.1 < b.1 then y else b) x
        = ys.foldl (fun b y => if y.1 < b.1 then y else b) (if y.1 < x.1 then y else x) := by
      simp only [List.foldl_cons]
    obtain ⟨ihf, ihm⟩ := ih (if y.1 < x.1 then y else x)
    refine ⟨?_, ?_⟩
    · rw [hfold, hMeq]
      by_cases hxy : y.1 < x.1
      · have hxne : ¬ (x.1 = minFstOf ((if y.1 < x.1 then y else x) :: ys)) := by
          rw [if_pos hxy]
          intro hx
          have : minFstOf (y :: ys) ≤ y.1 := by
            simpa [minFstOf] using foldMin_le ys y.1
          exact absurd (hx ▸ this) (not_le_of_lt hxy)
        rw [List.find?_cons_of_neg _ (by simpa using hxne)]
        rw [if_pos hxy] at ihf ⊢
        exact ihf
      · rw [if_neg hxy] at ihf ⊢
        by_cases hx : x.1 = minFstOf (x :: ys)
        · rw [List.find?_cons_of_pos _ (by simpa using hx)]
          rw [List.find?_cons_of_pos _ (by simpa using hx)] at ihf
          exact ihf
        · rw [List.find?_cons_of_neg _ (by simpa using hx)]
          rw [List.find?_cons_of_neg _ (by simpa using hx)] at ihf
          have hxM : minFstOf (x :: ys) ≤ x.1 := by
            simpa [minFstOf] using foldMin_le ys x.1
          have hyne : ¬ (y.1 = minFstOf (x :: ys)) := by
            intro hy
            have hyx : x.1 ≤ y.1 := le_of_not_lt hxy
            exact hx (le_antisymm (hy ▸ hyx) hxM)
          rw [List.find?_cons_of_neg _ (by simpa using hyne)]
          exact ihf
    · rw [hfold, hMeq]
      exact ihm


/-- C6: `get_entity_value` returns the absence value exactly when the
entity name is absent from the Entity Selection Rule or the Measurement
list of the entity's category is empty. -/
theorem C6_absence : ∀ (e : String) (cv : Categorized),
    get_entity_value e cv = none ↔
      ∀ p : String × Bool, selectionRule.lookup e = some p → getCat p.1 cv = [] := by
  intro e cv
  by_cases h1 : e = "item_weight"
  · subst h1
    cases hw : cv.weight <;>
      simp [get_entity_value, selectionRule, getCat, List.lookup, hw, pyMaxByFst]
  by_cases h2 : e = "maximum_weight_recommendation"
  · subst h2
    cases hw : cv.weight <;>
      simp [get_entity_value, selectionRule, getCat, List.lookup, hw, pyMaxByFst]
  by_cases h3 : e = "voltage"
  · subst h3
    cases hw : cv.voltage <;>
      simp [get_entity_value, selectionRule, getCat, List.lookup, hw, pyMaxByFst]
  by_cases h4 : e = "item_volume"
  · subst h4
    cases hw : cv.volume <;>
      simp [get_entity_value, selectionRule, getCat, List.lookup, hw, pyMaxByFst]
  by_cases h5 : e = "wattage"
  · subst h5
    cases hw : cv.wattage <;>
      simp [get_entity_value, selectionRule, getCat, List.lookup, hw, pyMaxByFst]
  by_cases h6 : e = "width"
  · subst h6
    cases hw : cv.length <;>
      simp [get_entity_value, selectionRule, getCat, List.lookup, hw, pyMaxByFst,
        pyMinByFst]
  by_cases h7 : e = "depth"
  · subst h7
    cases hw : cv.length <;>
      simp [get_entity_value, selectionRule, getCat, List.lookup, hw, pyMaxByFst]
  by_cases h8 : e = "height"
  · subst h8
    cases hw : cv.length <;>
      simp [get_entity_value, selectionRule, getCat, List.lookup, hw, pyMaxByFst]
  · simp [get_entity_value, selectionRule, List.lookup, h1, h2, h3, h4, h5, h6, h7, h8,
      beq_eq_false_iff_ne.mpr h1, beq_eq_false_iff_ne.mpr h2,
      beq_eq_false_iff_ne.mpr h3, beq_eq_false_iff_ne.mpr h4,
      beq_eq_false_iff_ne.mpr h5, beq_eq_false_iff_ne.mpr h6,
      beq_eq_false_iff_ne.mpr h7, beq_eq_false_iff_ne.mpr h8]

/-- Witness for C6 at its two "in particular" instances: an empty weight
list and an unknown entity name both give the absence value. -/
theorem C6_absence_witness :
    get_entity_value "item_weight" ⟨[], [], [], [], []⟩ = none ∧
    get_entity_value "unknown_entity" ⟨[(1, "1 millimetre")], [(2, "2 milligram")],
      [(3, "3 millivolt")], [(4, "4 millilitre")], [(5, "5 watt")]⟩ = none := by
  constructor
  · exact (C6_absence "item_weight" ⟨[], [], [], [], []⟩).mpr (by
      intro p hp
      simp [selectionRule, List.lookup] at hp
      rw [← hp]
      decide)
  · exact (C6_absence "unknown_entity" _).mpr (by
      intro p hp
      simp [selectionRule, List.lookup] at hp)

/-- The extremal base value of a Measurement list in the rule direction:
minimum when the take-minimum flag is set, maximum otherwise. -/
def extremalFst : Bool → List (ℚ × String) → ℚ
  | true, l => minFstOf l
  | false, l => maxFstOf l

/-- C2: for every categorized mapping and every entity of the Entity
Selection Rule whose category list is non-empty, selection returns the
display string of the first Measurement in the list attaining the extremal
base value: the maximum for all entities except width, the minimum for
width; `List.find?` makes the first-on-ties tie-break explicit. -/
theorem C2_selection (e cat : String) (isMin : Bool) (cv : Categorized)
    (hmem : (e, cat, isMin) ∈ selectionRule) (hne : getCat cat cv ≠ []) :
    get_entity_value e cv
      = ((getCat cat cv).find? fun p =>
          decide (p.1 = extremalFst isMin (getCat cat cv))).map Prod.snd := by
  simp only [selectionRule, List.mem_cons, List.not_mem_nil, or_false,
    Prod.mk.injEq] at hmem
  rcases hmem with ⟨he, hc, hm⟩ | ⟨he, hc, hm⟩ | ⟨he, hc, hm⟩ | ⟨he, hc, hm⟩ |
    ⟨he, hc, hm⟩ | ⟨he, hc, hm⟩ | ⟨he, hc, hm⟩ | ⟨he, hc, hm⟩ <;>
      subst he <;> subst hc <;> subst hm
  · have hg : getCat "weight" cv = cv.weight := by simp [getCat]
    rw [hg] at hne ⊢
    rw [get_entity_value, if_pos ⟨Or.inl rfl, hne⟩]
    cases hw : cv.weight with
    | nil => exact absurd hw hne
    | cons x xs =>
      simp only [pyMaxByFst, extremalFst]
      rw [(foldMax_find xs x).1]
  · have hg : getCat "weight" cv = cv.weight := by simp [getCat]
    rw [hg] at hne ⊢
    rw [get_entity_value, if_pos ⟨Or.inr rfl, hne⟩]
    cases hw : cv.weight with
    | nil => exact absurd hw hne
    | cons x xs =>
      simp only [pyMaxByFst, extremalFst]
      rw [(foldMax_find xs x).1]
  · have hg : getCat "voltage" cv = cv.voltage := by simp [getCat]
    rw [hg] at hne ⊢
    rw [get_entity_value, if_neg (by simp), if_pos ⟨rfl, hne⟩]
    cases hw : cv.voltage with
    | nil => exact absurd hw hne
    | cons x xs =>
      simp only [pyMaxByFst, extremalFst]
      rw [(foldMax_find xs x).1]
  · have hg : getCat "volume" cv = cv.volume := by simp [getCat]
    rw [hg] at hne ⊢
    rw [get_entity_value, if_neg (by simp), if_neg (by simp), if_pos ⟨rfl, hne⟩]
    cases hw : cv.volume with
    | nil => exact absurd hw hne
    | cons x xs =>
      simp only [pyMaxByFst, extremalFst]
      rw [(foldMax_find xs x).1]
  · have hg : getCat "wattage" cv = cv.wattage := by simp [getCat]
    rw [hg] at hne ⊢
    rw [get_entity_value, if_neg (by simp), if_neg (by simp), if_neg (by simp),
      if_pos ⟨rfl, hne⟩]
    cases hw : cv.wattage with
    | nil => exact absurd hw hne
    | cons x xs =>
      simp only [pyMaxByFst, extremalFst]
      rw [(foldMax_find xs x).1]
  · have hg : getCat "length" cv = cv.length := by simp [getCat]
    rw [hg] at hne ⊢
    rw [get_entity_value, if_neg (by simp), if_neg (by simp), if_neg (by simp),
      if_neg (by simp), if_pos ⟨Or.inl rfl, hne⟩, if_pos rfl]
    cases hw : cv.length with
    | nil => exact absurd hw hne
    | cons x xs =>
      simp only [pyMinByFst, extremalFst]
      rw [(foldMin_find xs x).1]
  · have hg : getCat "length" cv = cv.length := by simp [getCat]
    rw [hg] at hne ⊢
    rw [get_entity_value, if_neg (by simp), if_neg (by simp), if_neg (by simp),
      if_neg (by simp), if_pos ⟨Or.inr (Or.inl rfl), hne⟩, if_neg (by simp)]
    cases hw : cv.length with
    | nil => exact absurd hw hne
    | cons x xs =>
      simp only [pyMaxByFst, extremalFst]
      rw [(foldMax_find xs x).1]
  · have hg : getCat "length" cv = cv.length := by simp [getCat]
    rw [hg] at hne ⊢
    rw [get_entity_value, if_neg (by simp), if_neg (by simp), if_neg (by simp),
      if_neg (by simp), if_pos ⟨Or.inr (Or.inr rfl), hne⟩, if_neg (by simp)]
    cases hw : cv.length with
    | nil => exact absurd hw hne
    | cons x xs =>
      simp only [pyMaxByFst, extremalFst]
      rw [(foldMax_find xs x).1]

/-- Witness for C2 at the two tie-break examples of the spec: maximum for
item_weight, minimum for width. -/
theorem C2_selection_witness :
    get_entity_value "item_weight"
        ⟨[], [(500, "500 gram"), (1000, "1 kilogram")], [], [], []⟩
      = some "1 kilogram" ∧
    get_entity_value "width"
        ⟨[(10, "10 centimetre"), (5, "5 centimetre")], [], [], [], []⟩
      = some "5 centimetre" := by
  constructor
  · rw [C2_selection "item_weight" "weight" false
      ⟨[], [(500, "500 gram"), (1000, "1 kilogram")], [], [], []⟩
      (by decide) (by decide)]
    decide
  · rw [C2_selection "width" "length" true
      ⟨[(10, "10 centimetre"), (5, "5 centimetre")], [], [], [], []⟩
      (by decide) (by decide)]
    decide

/-! Section: Properties of the fuzzy matcher -/

/-- Cross-multiplied score comparison is transitive when the middle
denominator is positive. -/
theorem crossLe_trans {na da nb db nc dc : ℕ} (hdb : 0 < db)
    (h1 : na * db ≤ nb * da) (h2 : nb * dc ≤ nc * db) :
    na * dc ≤ nc * da := by
  have h3 : na * dc * db ≤ nc * da * db := by
    calc na * dc * db = na * db * dc := by ring
    _ ≤ nb * da * dc := Nat.mul_le_mul_right _ h1
    _ = nb * dc * da := by ring
    _ ≤ nc * db * da := Nat.mul_le_mul_right _ h2
    _ = nc * da * db := by ring
  exact Nat.le_of_mul_le_mul_right h3 hdb

/-- The bestMatch fold returns its accumulator or a list element. -/
theorem bestFold_mem (q : String) :
    ∀ (cs : List String) (b : String),
      cs.foldl (fun b y =>
        if scoreNum q y * scoreDen q b > scoreNum q b * scoreDen q y then y
        else b) b = b ∨
      cs.foldl (fun b y =>
        if scoreNum q y * scoreDen q b > scoreNum q b * scoreDen q y then y
        else b) b ∈ cs := by
  intro cs
  induction cs with
  | nil => intro b; exact Or.inl rfl
  | cons y ys ih =>
    intro b
    rw [List.foldl_cons]
    rcases ih (if scoreNum q y * scoreDen q b > scoreNum q b * scoreDen q y
        then y else b) with he | hm
    · rw [he]
      by_cases h : scoreNum q y * scoreDen q b > scoreNum q b * scoreDen q y
      · rw [if_pos h]; exact Or.inr (List.mem_cons_self _ _)
      · rw [if_neg h]; exact Or.inl rfl
    · exact Or.inr (List.mem_cons_of_mem _ hm)

/-- The bestMatch fold dominates its accumulator and every list element in
the cross-multiplied score order. -/
theorem bestFold_ge (q : String) :
    ∀ (cs : List String) (b : String),
      (∀ y ∈ cs, 0 < scoreDen q y) → 0 < scoreDen q b →
      (scoreNum q b * scoreDen q (cs.foldl (fun b y =>
          if scoreNum q y * scoreDen q b > scoreNum q b * scoreDen q y then y
          else b) b)
        ≤ scoreNum q (cs.foldl (fun b y =>
          if scoreNum q y * scoreDen q b > scoreNum q b * scoreDen q y then y
          else b) b) * scoreDen q b) ∧
      ∀ y ∈ cs,
        scoreNum q y * scoreDen q (cs.foldl (fun b y =>
          if scoreNum q y * scoreDen q b > scoreNum q b * scoreDen q y then y
          else b) b)
        ≤ scoreNum q (cs.foldl (fun b y =>
          if scoreNum q y * scoreDen q b > scoreNum q b * scoreDen q y then y
          else b) b) * scoreDen q y := by
  intro cs
  induction cs with
  | nil =>
    intro b _ _
    exact ⟨le_refl _, by intro y hy; simp at hy⟩
  | cons y ys ih =>
    intro b hpos hb
    have hy : 0 < scoreDen q y := hpos y (List.mem_cons_self _ _)
    have hacc : 0 < scoreDen q (if scoreNum q y * scoreDen q b
        > scoreNum q b * scoreDen q y then y else b) := by
      by_cases h : scoreNum q y * scoreDen q b > scoreNum q b * scoreDen q y
      · rw [if_pos h]; exact hy
      · rw [if_neg h]; exact hb
    obtain ⟨ihb, ihall⟩ := ih (if scoreNum q y * scoreDen q b
        > scoreNum q b * scoreDen q y then y else b)
      (fun z hz => hpos z (List.mem_cons_of_mem _ hz)) hacc
    have hbacc : scoreNum q b * scoreDen q (if scoreNum q y * scoreDen q b
        > scoreNum q b * scoreDen q y then y else b)
        ≤ scoreNum q (if scoreNum q y * scoreDen q b
        > scoreNum q b * scoreDen q y then y else b) * scoreDen q b := by
      by_cases h : scoreNum q y * scoreDen q b > scoreNum q b * scoreDen q y
      · rw [if_pos h]; exact le_of_lt h
      · rw [if_neg h]
    have hyacc : scoreNum q y * scoreDen q (if scoreNum q y * scoreDen q b
        > scoreNum q b * scoreDen q y then y else b)
        ≤ scoreNum q (if scoreNum q y * scoreDen q b
        > scoreNum q b * scoreDen q y then y else b) * scoreDen q y := by
      by_cases h : scoreNum q y * scoreDen q b > scoreNum q b * scoreDen q y
      · rw [if_pos h]
      · rw [if_neg h]; exact le_of_not_lt h
    rw [List.foldl_cons]
    refine ⟨crossLe_trans hacc hbacc ihb, ?_⟩
    intro z hz
    rcases List.mem_cons.mp hz with rfl | hz
    · exact crossLe_trans hacc hyacc ihb
    · exact ihall z hz

/-- A returned bestMatch choice is a member of the choice list. -/
theorem bestMatch_mem (q : String) (choices : List String) (c : String)
    (h : bestMatch q choices = some c) : c ∈ choices := by
  cases choices with
  | nil => exact absurd h (by simp [bestMatch])
  | cons x xs =>
    rw [bestMatch] at h
    injection h with h
    rcases bestFold_mem q xs x with he | hm
    · rw [← h, he]; exact List.mem_cons_self _ _
    · rw [← h]; exact List.mem_cons_of_mem _ hm

/-- Threshold acceptance in cross-multiplied form agrees with the rational
score: `95·den ≤ num` iff the 0–100 score is at least 95. -/
theorem ratio_ge_iff (q c : String) (hd : 0 < scoreDen q c) :
    95 * scoreDen q c ≤ scoreNum q c ↔ 95 ≤ ratioQ q c := by
  have hd' : q.data.length + c.data.length ≠ 0 := by
    simpa [scoreDen] using Nat.pos_iff_ne_zero.mp hd
  rw [ratioQ, if_neg hd']
  rw [le_div_iff₀ (by exact_mod_cast Nat.pos_of_ne_zero hd')]
  constructor
  · intro h
    exact_mod_cast h
  · intro h
    exact_mod_cast h

/-- Strict rejection in cross-multiplied form agrees with the rational
score: `num < 95·den` iff the 0–100 score is below 95. -/
theorem ratio_lt_iff (q c : String) (hd : 0 < scoreDen q c) :
    scoreNum q c < 95 * scoreDen q c ↔ ratioQ q c < 95 := by
  rw [← not_le, ← not_le, not_iff_not]
  exact ratio_ge_iff q c hd

/-- Every matcher candidate is a nonempty string. -/
theorem all_units_nonempty : ∀ c ∈ all_units, c.data ≠ [] := by decide

/-- C7: the matcher returns an accepted surface form only when the token
scores at least 95 (on the 0–100 scale) against it, and a token scoring
below 95 against every surface form yields no output pair — totally,
without any error value. -/
theorem C7_matcher (q : String) :
    (∀ m, extractOne95 q all_units = some m → m ∈ all_units ∧ 95 ≤ ratioQ q m) ∧
    ((∀ c ∈ all_units, ratioQ q c < 95) → extractOne95 q all_units = none) := by
  constructor
  · intro m hm
    rw [extractOne95] at hm
    cases hbm : bestMatch q all_units with
    | none => rw [hbm] at hm; exact absurd hm (by simp)
    | some c =>
      rw [hbm] at hm
      dsimp only at hm
      by_cases hacc : 95 * scoreDen q c ≤ scoreNum q c
      · rw [if_pos hacc] at hm
        injection hm with hm
        subst hm
        have hmem := bestMatch_mem q all_units c hbm
        have hd : 0 < scoreDen q c := by
          have h1 := all_units_nonempty c hmem
          have h2 : 0 < c.data.length := List.length_pos.mpr h1
          simp only [scoreDen]
          omega
        exact ⟨hmem, (ratio_ge_iff q c hd).mp hacc⟩
      · rw [if_neg hacc] at hm
        exact absurd hm (by simp)
  · intro hall
    rw [extractOne95]
    cases hbm : bestMatch q all_units with
    | none => rfl
    | some c =>
      have hmem := bestMatch_mem q all_units c hbm
      have hd : 0 < scoreDen q c := by
        have := all_units_nonempty c hmem
        have : 0 < c.data.length := List.length_pos.mpr this
        simp only [scoreDen]
        omega
      dsimp only
      rw [if_neg (not_le_of_lt ((ratio_lt_iff q c hd).mpr (hall c hmem)))]

/-- Witness for C7: the exact token "kg" is accepted with score 100 ≥ 95;
the junk token "qq" scores below 95 everywhere and is rejected. -/
theorem C7_matcher_witness :
    ("kg" ∈ all_units ∧ 95 ≤ ratioQ "kg" "kg") ∧
    extractOne95 "qq" all_units = none := by
  constructor
  · exact (C7_matcher "kg").1 "kg" (by decide)
  · refine (C7_matcher "qq").2 ?_
    intro c hc
    have hlt : scoreNum "qq" c < 95 * scoreDen "qq" c := by
      have hall : all_units.all
          (fun c => decide (scoreNum "qq" c < 95 * scoreDen "qq" c)) = true := by
        decide
      simpa using List.all_eq_true.mp hall c hc
    have hq2 : ("qq" : String).data.length = 2 := by decide
    have hdpos : 0 < scoreDen "qq" c := by
      simp only [scoreDen, hq2]
      omega
    exact (ratio_lt_iff "qq" c hdpos).mp hlt

/-! Section: Properties of the normalizer `get_full_unit` -/

/-- The vocabulary's surface-form sets (canonical name plus abbreviations)
are pairwise disjoint across entries. -/
theorem vocab_disjoint :
    List.Pairwise (fun p q : String × List String =>
      ∀ t ∈ p.1 :: p.2, t ∉ q.1 :: q.2) unit_fullform_to_abbreviation := by
  decide

/-- Any surface form claimed by an entry of a pairwise-disjoint table is
normalized to that entry's canonical name. -/
theorem lookupOwnerAux_mem :
    ∀ (tbl : List (String × List String)),
      List.Pairwise (fun p q => ∀ t ∈ p.1 :: p.2, t ∉ q.1 :: q.2) tbl →
      ∀ (u : String) (ab : List String) (t : String), (u, ab) ∈ tbl →
        (t = u ∨ t ∈ ab) → lookupOwnerAux tbl t = u := by
  intro tbl
  induction tbl with
  | nil =>
    intro _ u ab t h
    exact absurd h (by simp)
  | cons p rest ih =>
    intro hpw u ab t hmem hform
    obtain ⟨hd, hrest⟩ := List.pairwise_cons.mp hpw
    obtain ⟨fu, abbrs⟩ := p
    rcases List.mem_cons.mp hmem with heq | hmem2
    · injection heq with h1 h2
      subst h1
      subst h2
      rw [lookupOwnerAux, if_pos hform]
    · have hnot : ¬ (t = fu ∨ t ∈ abbrs) := by
        intro hin
        have hdisj := hd (u, ab) hmem2
        have htp : t ∈ fu :: abbrs := by
          rcases hin with h | h
          · exact h ▸ List.mem_cons_self _ _
          · exact List.mem_cons_of_mem _ h
        have htq : t ∈ u :: ab := by
          rcases hform with h | h
          · exact h ▸ List.mem_cons_self _ _
          · exact List.mem_cons_of_mem _ h
        exact hdisj t htp htq
      rw [lookupOwnerAux, if_neg hnot]
      exact ih hrest u ab t hmem2 hform

/-- A cleaned string claimed by no entry is normalized to the empty
string. -/
theorem lookupOwnerAux_none :
    ∀ (tbl : List (String × List String)) (t : String),
      (∀ p ∈ tbl, ¬ (t = p.1 ∨ t ∈ p.2)) → lookupOwnerAux tbl t = "" := by
  intro tbl
  induction tbl with
  | nil => intro t _; rfl
  | cons p rest ih =>
    intro t h
    obtain ⟨fu, abbrs⟩ := p
    rw [lookupOwnerAux, if_neg (h (fu, abbrs) (List.mem_cons_self _ _))]
    exact ih t fun q hq => h q (List.mem_cons_of_mem _ hq)

/-- C9: every string whose cleaned form (case folding, strip, whitespace
collapsing) is a surface form of canonical unit u — u itself or one of its
abbreviations — normalizes to u; a string whose cleaned form is claimed by
no canonical unit normalizes to the empty string. -/
theorem C9_normalizer :
    (∀ (u : String) (ab : List String) (s : String),
       (u, ab) ∈ unit_fullform_to_abbreviation →
       (cleanUnit s = u ∨ cleanUnit s ∈ ab) → get_full_unit s = u) ∧
    (∀ s : String, (∀ p ∈ unit_fullform_to_abbreviation,
       ¬ (cleanUnit s = p.1 ∨ cleanUnit s ∈ p.2)) → get_full_unit s = "") := by
  constructor
  · intro u ab s hmem hform
    rw [get_full_unit]
    exact lookupOwnerAux_mem _ vocab_disjoint u ab _ hmem hform
  · intro s h
    rw [get_full_unit]
    exact lookupOwnerAux_none _ _ h

/-- Witness for C9: a case variant, a variant with internal whitespace
runs, and an unclaimed string. -/
theorem C9_normalizer_witness :
    get_full_unit "KG" = "kilogram" ∧
    get_full_unit " cu   FT " = "cubic foot" ∧
    get_full_unit "zzz" = "" :=
  ⟨C9_normalizer.1 "kilogram" ["kg", "kgs", "kilograms"] "KG"
      (by decide) (by decide),
   C9_normalizer.1 "cubic foot" ["cu ft", "ft³"] " cu   FT "
      (by decide) (by decide),
   C9_normalizer.2 "zzz" (by decide)⟩

/-! Section: Shape of the token extractor's output -/

/-- The shape of group 1 of the extraction regex: one or more digits,
optionally a decimal point followed by one or more digits. -/
def NumShape (s : String) : Prop :=
  ∃ ds frac : List Char, s.data = ds ++ frac ∧ ds ≠ [] ∧
    (∀ c ∈ ds, c.isDigit) ∧
    (frac = [] ∨ ∃ fs, frac = '.' :: fs ∧ fs ≠ [] ∧ ∀ c ∈ fs, c.isDigit)

theorem fracSplit_fst_shape (l : List Char) :
    (fracSplit l).1 = [] ∨
    ∃ fs, (fracSplit l).1 = '.' :: fs ∧ fs ≠ [] ∧ ∀ c ∈ fs, c.isDigit := by
  match l with
  | [] => exact Or.inl rfl
  | c :: r =>
    simp only [fracSplit]
    split
    · split
      · exact Or.inl rfl
      · rename_i hne
        refine Or.inr ⟨r.takeWhile Char.isDigit, rfl, by simpa using hne,
          fun ch hch => List.mem_takeWhile_imp hch⟩
    · exact Or.inl rfl

theorem matchAt_shape {cs : List Char} {p : String × String} {r : List Char}
    (h : matchAt cs = some (p, r)) :
    NumShape p.1 ∧ p.2.data ≠ [] ∧ ∀ c ∈ p.2.data, c.isAlpha := by
  unfold matchAt at h
  split at h
  · exact absurd h (by simp)
  · split at h
    · exact absurd h (by simp)
    · rename_i hds hls
      injection h with h1
      injection h1 with h2
      subst h2
      refine ⟨⟨cs.takeWhile Char.isDigit, (fracSplit (cs.dropWhile Char.isDigit)).1,
        rfl, by simpa using hds, fun c hc => List.mem_takeWhile_imp hc,
        fracSplit_fst_shape _⟩, by simpa using hls,
        fun c hc => List.mem_takeWhile_imp hc⟩

theorem scanF_shape :
    ∀ (fuel : ℕ) (cs : List Char) (p : String × String), p ∈ scanF fuel cs →
      NumShape p.1 ∧ p.2.data ≠ [] ∧ ∀ c ∈ p.2.data, c.isAlpha := by
  intro fuel
  induction fuel with
  | zero => intro cs p h; exact absurd h (by simp [scanF])
  | succ fuel ih =>
    intro cs p h
    match cs with
    | [] => exact absurd h (by simp [scanF])
    | c :: cs' =>
      rw [scanF] at h
      revert h
      cases hm : matchAt (c :: cs') with
      | none => exact fun h => ih cs' p h
      | some pr =>
        obtain ⟨q, r⟩ := pr
        intro h
        rcases List.mem_cons.mp h with rfl | h2
        · exact matchAt_shape hm
        · exact ih r p h2

/-- C10: every unit token the extractor produces is a nonempty string of
ASCII letters; consequently the quote surface forms of inch and foot can
never be the extracted token, and the text `12"` yields no output pair. -/
theorem C10_ascii_tokens :
    (∀ (text : String) (p : String × String), p ∈ scan text.data →
       p.2.data ≠ [] ∧ (∀ c ∈ p.2.data, c.isAlpha) ∧
       p.2 ≠ "\"" ∧ p.2 ≠ "'") ∧
    extract_numbers_with_units "12\"" = [] := by
  constructor
  · intro text p hp
    obtain ⟨_, hne, halpha⟩ := scanF_shape _ _ p hp
    refine ⟨hne, halpha, ?_, ?_⟩
    · intro hq
      have : ('"' : Char).isAlpha := by
        have := halpha '"'
        rw [hq] at this
        exact this (by decide)
      exact absurd this (by decide)
    · intro hq
      have : ('\'' : Char).isAlpha := by
        have := halpha '\''
        rw [hq] at this
        exact this (by decide)
      exact absurd this (by decide)
  · decide

/-- Witness for C10 at the concrete text "5kg" and its extracted pair. -/
theorem C10_ascii_tokens_witness :
    ("5", "kg").2.data ≠ [] ∧ (∀ c ∈ ("5", "kg").2.data, c.isAlpha) ∧
    ("5", "kg").2 ≠ "\"" ∧ ("5", "kg").2 ≠ "'" :=
  C10_ascii_tokens.1 "5kg" ("5", "kg") (by decide)

/-! Section: Bounds on the similarity score: tokens of pure ASCII letters can
never reach the 95 threshold against the space- or quote-containing
surface forms -/

theorem lcsF_le_left :
    ∀ (fuel : ℕ) (s t : List Char), lcsF fuel s t ≤ s.length := by
  intro fuel
  induction fuel with
  | zero => intro s t; match s, t with
    | [], _ => exact Nat.zero_le _
    | _ :: _, _ => exact Nat.zero_le _
  | succ fuel ih =>
    intro s t
    match s, t with
    | [], _ => exact Nat.zero_le _
    | _ :: _, [] => exact Nat.zero_le _
    | a :: s, b :: t =>
      rw [lcsF]
      by_cases h : a = b
      · rw [if_pos h]
        simpa using ih s t
      · rw [if_neg h]
        refine max_le ?_ ?_
        · exact ih (a :: s) t
        · exact le_trans (ih s (b :: t)) (by simp)

theorem lcsF_le_countP (p : Char → Bool) :
    ∀ (fuel : ℕ) (s t : List Char), (∀ c ∈ s, p c) →
      lcsF fuel s t ≤ t.countP p := by
  intro fuel
  induction fuel with
  | zero => intro s t _; match s, t with
    | [], _ => exact Nat.zero_le _
    | _ :: _, _ => exact Nat.zero_le _
  | succ fuel ih =>
    intro s t hs
    match s, t with
    | [], _ => exact Nat.zero_le _
    | _ :: _, [] => exact Nat.zero_le _
    | a :: s, b :: t =>
      rw [lcsF]
      by_cases h : a = b
      · rw [if_pos h]
        have hb : p b = true := h ▸ hs a (List.mem_cons_self _ _)
        have hcc : (b :: t).countP p = t.countP p + 1 := by
          rw [List.countP_cons, hb]
          simp
        rw [hcc]
        have := ih s t (fun c hc => hs c (List.mem_cons_of_mem _ hc))
        omega
      · rw [if_neg h]
        have hcount : t.countP p ≤ (b :: t).countP p := by
          rw [List.countP_cons]
          omega
        refine max_le ?_ ?_
        · exact le_trans (ih (a :: s) t hs) hcount
        · exact ih s (b :: t) (fun c hc => hs c (List.mem_cons_of_mem _ hc))

theorem lcs_le_left (s t : List Char) : lcs s t ≤ s.length := by
  rw [lcs_eq_lcsF]
  exact lcsF_le_left _ s t

theorem lcs_le_countP (p : Char → Bool) (s t : List Char)
    (hs : ∀ c ∈ s, p c) : lcs s t ≤ t.countP p := by
  rw [lcs_eq_lcsF]
  exact lcsF_le_countP p _ s t hs

/-- The six surface forms whose acceptance would break the downstream
re-parsing: the multi-word forms (truncated to their first word by `\w+`)
and the two quote symbols (rejected by `\w+`, forcing backtracking into
the digits). -/
def problemForms : List String :=
  ["cu ft", "cu in", "fl oz", "imp gal", "\"", "'"]

/-- A token consisting only of ASCII letters can never score at or above
the 95 threshold against any of the problem surface forms. -/
theorem alpha_token_rejects_problem (tok : String)
    (htok : ∀ c ∈ tok.data, c.isAlpha) (mu : String)
    (hmu : mu ∈ problemForms)
    (hacc : 95 * scoreDen tok mu ≤ scoreNum tok mu) : False := by
  have hL1 : lcs tok.data mu.data ≤ tok.data.length := lcs_le_left _ _
  have hL2 : lcs tok.data mu.data ≤ mu.data.countP Char.isAlpha :=
    lcs_le_countP _ _ _ htok
  simp only [problemForms, List.mem_cons, List.not_mem_nil, or_false] at hmu
  simp only [scoreNum, scoreDen] at hacc
  rcases hmu with rfl | rfl | rfl | rfl | rfl | rfl
  · rw [show ("cu ft" : String).data.length = 5 by decide] at hacc
    rw [show ("cu ft" : String).data.countP Char.isAlpha = 4 by decide] at hL2
    omega
  · rw [show ("cu in" : String).data.length = 5 by decide] at hacc
    rw [show ("cu in" : String).data.countP Char.isAlpha = 4 by decide] at hL2
    omega
  · rw [show ("fl oz" : String).data.length = 5 by decide] at hacc
    rw [show ("fl oz" : String).data.countP Char.isAlpha = 4 by decide] at hL2
    omega
  · rw [show ("imp gal" : String).data.length = 7 by decide] at hacc
    rw [show ("imp gal" : String).data.countP Char.isAlpha = 6 by decide] at hL2
    omega
  · rw [show ("\"" : String).data.length = 1 by decide] at hacc
    rw [show ("\"" : String).data.countP Char.isAlpha = 0 by decide] at hL2
    omega
  · rw [show ("'" : String).data.length = 1 by decide] at hacc
    rw [show ("'" : String).data.countP Char.isAlpha = 0 by decide] at hL2
    omega

/-! Section: Helpers for re-parsing the `f"{number} {unit}"` items -/

theorem takeWhile_append_cons {p : Char → Bool} {xs : List Char} {y : Char}
    {ys : List Char} (hxs : ∀ c ∈ xs, p c) (hy : p y = false) :
    (xs ++ y :: ys).takeWhile p = xs := by
  induction xs with
  | nil => simp [List.takeWhile_cons, hy]
  | cons x xs ih =>
    have hx : p x = true := hxs x (List.mem_cons_self _ _)
    rw [List.cons_append, List.takeWhile_cons, hx]
    rw [ih fun c hc => hxs c (List.mem_cons_of_mem _ hc)]
    simp

theorem dropWhile_append_cons {p : Char → Bool} {xs : List Char} {y : Char}
    {ys : List Char} (hxs : ∀ c ∈ xs, p c) (hy : p y = false) :
    (xs ++ y :: ys).dropWhile p = y :: ys := by
  induction xs with
  | nil => simp [List.dropWhile_cons, hy]
  | cons x xs ih =>
    have hx : p x = true := hxs x (List.mem_cons_self _ _)
    rw [List.cons_append, List.dropWhile_cons, hx]
    rw [ih fun c hc => hxs c (List.mem_cons_of_mem _ hc)]
    simp

theorem takeWhile_all {p : Char → Bool} {xs : List Char}
    (hxs : ∀ c ∈ xs, p c) : xs.takeWhile p = xs := by
  induction xs with
  | nil => rfl
  | cons x xs ih =>
    rw [List.takeWhile_cons, hxs x (List.mem_cons_self _ _)]
    rw [ih fun c hc => hxs c (List.mem_cons_of_mem _ hc)]
    simp

theorem str_data_append (a b : String) : (a ++ b).data = a.data ++ b.data := by
  obtain ⟨da⟩ := a
  obtain ⟨db⟩ := b
  rfl

theorem str_mk_data (s : String) : (⟨s.data⟩ : String) = s := by
  obtain ⟨d⟩ := s
  rfl

theorem word_not_space {c : Char} (h : isWordChar c = true) :
    isPySpace c = false := by
  cases hsp : isPySpace c
  · rfl
  · exfalso
    have hc : c ∈ [' ', '\t', '\n', '\r', '\x0b', '\x0c'] := by
      simpa [isPySpace] using hsp
    simp only [List.mem_cons, List.not_mem_nil, or_false] at hc
    rcases hc with rfl | rfl | rfl | rfl | rfl | rfl <;> exact absurd h (by decide)

theorem numShape_ne {s : String} (h : NumShape s) : s.data ≠ [] := by
  obtain ⟨ds, frac, heq, hne, _, _⟩ := h
  rw [heq]
  simp [hne]

theorem numShape_numChar {s : String} (h : NumShape s) :
    ∀ c ∈ s.data, isNumChar c := by
  obtain ⟨ds, frac, heq, _, hds, hfrac⟩ := h
  rw [heq]
  intro c hc
  rcases List.mem_append.mp hc with hd | hf
  · simp [isNumChar, hds c hd]
  · rcases hfrac with rfl | ⟨fs, rfl, _, hfs⟩
    · exact absurd hf (by simp)
    · rcases List.mem_cons.mp hf with rfl | hfs2
      · simp [isNumChar]
      · simp [isNumChar, hfs c hfs2]

/-- Re-parsing an extracted item `f"{number} {unit}"` whose unit consists
of word characters recovers exactly the number and the unit. -/
theorem sepMatch_full {n mu : String} (hn : n.data ≠ [])
    (hnum : ∀ c ∈ n.data, isNumChar c) (hw : mu.data ≠ [])
    (hword : ∀ c ∈ mu.data, isWordChar c) :
    sepMatch (n ++ " " ++ mu) = some (n, mu) := by
  have hdata : (n ++ " " ++ mu).data = n.data ++ ' ' :: mu.data := by
    rw [str_data_append, str_data_append]
    simp [List.append_assoc]
  rw [sepMatch, hdata]
  rw [takeWhile_append_cons hnum (by decide),
    dropWhile_append_cons hnum (by decide)]
  cases hrev : n.data.reverse with
  | nil =>
    exact absurd (by simpa using congrArg List.reverse hrev) hn
  | cons c rev =>
    rw [sepGoRev]
    have hback : (c :: rev).reverse = n.data := by
      rw [← hrev, List.reverse_reverse]
    rw [hback]
    have hdrop : (' ' :: mu.data).dropWhile isPySpace = mu.data := by
      rw [List.dropWhile_cons]
      simp only [show isPySpace ' ' = true by decide, if_true]
      cases hmu : mu.data with
      | nil => rfl
      | cons m0 ms =>
        rw [List.dropWhile_cons,
          word_not_space (hword m0 (by rw [hmu]; exact List.mem_cons_self _ _))]
        simp only [Bool.false_eq_true, if_false]
    have htake : mu.data.takeWhile isWordChar = mu.data := takeWhile_all hword
    rw [sepTryNum, hdrop, htake]
    rw [if_neg (show ¬ mu.data.isEmpty = true by simpa using hw)]

/-- Re-parsing an extracted item whose unit starts with a word-character
run followed by a non-word character (e.g. a space) keeps only that first
run as the unit. -/
theorem sepMatch_wordBreak (n mu : String) (w : List Char) (r0 : Char)
    (rs : List Char) (hn : n.data ≠ []) (hnum : ∀ c ∈ n.data, isNumChar c)
    (hsplit : mu.data = w ++ r0 :: rs) (hw : w ≠ [])
    (hword : ∀ c ∈ w, isWordChar c) (hr0 : isWordChar r0 = false) :
    sepMatch (n ++ " " ++ mu) = some (n, ⟨w⟩) := by
  have hdata : (n ++ " " ++ mu).data = n.data ++ ' ' :: mu.data := by
    rw [str_data_append, str_data_append]
    simp [List.append_assoc]
  rw [sepMatch, hdata]
  rw [takeWhile_append_cons hnum (by decide),
    dropWhile_append_cons hnum (by decide)]
  cases hrev : n.data.reverse with
  | nil =>
    exact absurd (by simpa using congrArg List.reverse hrev) hn
  | cons c rev =>
    rw [sepGoRev]
    have hback : (c :: rev).reverse = n.data := by
      rw [← hrev, List.reverse_reverse]
    rw [hback]
    have hdrop : (' ' :: mu.data).dropWhile isPySpace = mu.data := by
      rw [List.dropWhile_cons]
      simp only [show isPySpace ' ' = true by decide, if_true]
      rw [hsplit]
      cases hwc : w with
      | nil => exact absurd hwc hw
      | cons w0 ws =>
        rw [List.cons_append, List.dropWhile_cons,
          word_not_space (hword w0 (by rw [hwc]; exact List.mem_cons_self _ _))]
        simp [hsplit, hwc]
    have htake : mu.data.takeWhile isWordChar = w := by
      rw [hsplit]
      exact takeWhile_append_cons hword hr0
    rw [sepTryNum, hdrop, htake]
    rw [if_neg (show ¬ w.isEmpty = true by simpa using hw)]

/-- An accepted extractOne95 result is a member of the choices scoring at
least the threshold (in cross-multiplied form). -/
theorem extractOne95_accept {q c : String} {choices : List String}
    (h : extractOne95 q choices = some c) :
    c ∈ choices ∧ 95 * scoreDen q c ≤ scoreNum q c := by
  rw [extractOne95] at h
  cases hbm : bestMatch q choices with
  | none => rw [hbm] at h; exact absurd h (by simp)
  | some c0 =>
    rw [hbm] at h
    dsimp only at h
    by_cases hacc : 95 * scoreDen q c0 ≤ scoreNum q c0
    · rw [if_pos hacc] at h
      injection h with h
      subst h
      exact ⟨bestMatch_mem q choices c0 hbm, hacc⟩
    · rw [if_neg hacc] at h
      exact absurd h (by simp)

/-- Every candidate surface form other than the six problem forms and the
two reachable multi-word long forms is a nonempty all-word-character
string that the normalizer maps to a nonempty canonical name. -/
theorem all_units_good : ∀ c ∈ all_units, c ∉ problemForms →
    c ∉ ["fluid ounces", "imperial gallons"] →
    c.data ≠ [] ∧ (∀ ch ∈ c.data, isWordChar ch) ∧ get_full_unit c ≠ "" := by
  decide

/-- C3 counterexample: for the input text "5fluidounces" the fuzzy matcher
accepts the surface form "fluid ounces" (similarity 2200/23 ≈ 95.65 ≥ 95),
the separation regex truncates the unit to "fluid", and the downstream
canonical lookup fails, returning the empty string — so a canonical lookup
failure downstream of an accepted fuzzy match does occur. -/
theorem C3_counterexample :
    extract_numbers_with_units "5fluidounces" = ["5 fluid ounces"] ∧
    sepMatch "5 fluid ounces" = some ("5", "fluid") ∧
    get_full_unit "fluid" = "" := by
  refine ⟨by decide, by decide, by decide⟩

/-- C3 amended: whenever the fuzzy matcher accepts a unit token of an
input text, the pair carried forward to the normalizer receives a
non-empty canonical unit name, UNLESS the accepted surface form is one of
the two reachable multi-word forms "fluid ounces" / "imperial gallons", in
which case the re-parsed unit is its first word ("fluid" / "imperial")
and the canonical lookup fails. -/
theorem C3_amended (text item n u : String)
    (hitem : item ∈ extract_numbers_with_units text)
    (hsep : sepMatch item = some (n, u)) :
    get_full_unit u ≠ "" ∨ u = "fluid" ∨ u = "imperial" := by
  rw [extract_numbers_with_units] at hitem
  obtain ⟨p, hp, hmap⟩ := List.mem_filterMap.mp hitem
  cases hext : extractOne95 p.2 all_units with
  | none => rw [hext] at hmap; exact absurd hmap (by simp)
  | some mu =>
    rw [hext] at hmap
    rw [Option.map_some'] at hmap
    injection hmap with hmap
    obtain ⟨hmem, hacc⟩ := extractOne95_accept hext
    rw [scan] at hp
    obtain ⟨hns, hne, halpha⟩ := scanF_shape _ _ p hp
    have hnotbad : mu ∉ problemForms := fun hb =>
      alpha_token_rejects_problem p.2 halpha mu hb hacc
    by_cases hmw : mu ∈ ["fluid ounces", "imperial gallons"]
    · simp only [List.mem_cons, List.not_mem_nil, or_false] at hmw
      rcases hmw with rfl | rfl
      · have hfull : sepMatch (p.1 ++ " " ++ "fluid ounces")
            = some (p.1, "fluid") :=
          sepMatch_wordBreak p.1 "fluid ounces" "fluid".data ' ' "ounces".data
            (numShape_ne hns) (numShape_numChar hns) (by decide) (by decide)
            (by decide) (by decide)
        rw [← hmap, hfull] at hsep
        injection hsep with hsep
        have hu : u = "fluid" := (Prod.mk.injEq _ _ _ _).mp hsep.symm |>.2
        exact Or.inr (Or.inl hu)
      · have hfull : sepMatch (p.1 ++ " " ++ "imperial gallons")
            = some (p.1, "imperial") :=
          sepMatch_wordBreak p.1 "imperial gallons" "imperial".data ' '
            "gallons".data (numShape_ne hns) (numShape_numChar hns) (by decide)
            (by decide) (by decide) (by decide)
        rw [← hmap, hfull] at hsep
        injection hsep with hsep
        have hu : u = "imperial" := (Prod.mk.injEq _ _ _ _).mp hsep.symm |>.2
        exact Or.inr (Or.inr hu)
    · obtain ⟨hmune, hmuword, hlookup⟩ := all_units_good mu hmem hnotbad hmw
      have hfull : sepMatch (p.1 ++ " " ++ mu) = some (p.1, mu) :=
        sepMatch_full (numShape_ne hns) (numShape_numChar hns) hmune hmuword
      rw [← hmap, hfull] at hsep
      injection hsep with hsep
      have hu : u = mu := (Prod.mk.injEq _ _ _ _).mp hsep.symm |>.2
      rw [hu]
      exact Or.inl hlookup

/-- Witness for C3 amended at the item extracted from the text "2.5 kg"
(the left disjunct: "kg" receives the canonical name "kilogram"). -/
theorem C3_amended_witness :
    get_full_unit "kg" ≠ "" ∨ ("kg" : String) = "fluid" ∨ ("kg" : String) = "imperial" :=
  C3_amended "2.5 kg" "2.5 kg" "2.5" "kg" (by decide) (by decide)

/-! Section: Totality of the pipeline: every number string handed to `float` by
`categorize_values` parses -/

theorem prefix_append_cases {α : Type} :
    ∀ (xs ys p : List α), p <+: xs ++ ys →
      p <+: xs ∨ ∃ q, p = xs ++ q ∧ q <+: ys := by
  intro xs
  induction xs with
  | nil =>
    intro ys p h
    exact Or.inr ⟨p, rfl, h⟩
  | cons x xs ih =>
    intro ys p h
    cases p with
    | nil => exact Or.inl ⟨x :: xs, rfl⟩
    | cons a p =>
      rw [List.cons_append] at h
      obtain ⟨rfl, h2⟩ := List.cons_prefix_cons.mp h
      rcases ih ys p h2 with h3 | ⟨q, rfl, hq⟩
      · exact Or.inl (List.cons_prefix_cons.mpr ⟨rfl, h3⟩)
      · exact Or.inr ⟨q, rfl, hq⟩

theorem sepTryNum_num {num rest : List Char} {n u : String}
    (h : sepTryNum num rest = some (n, u)) : n = ⟨num⟩ := by
  rw [sepTryNum] at h
  split at h
  · exact absurd h (by simp)
  · injection h with h
    exact ((Prod.mk.injEq _ _ _ _).mp h.symm).1

theorem sepGoRev_pre :
    ∀ (rev rest : List Char) (n u : String), sepGoRev rev rest = some (n, u) →
      n.data ≠ [] ∧ n.data <+: rev.reverse := by
  intro rev
  induction rev with
  | nil =>
    intro rest n u h
    exact absurd h (by simp [sepGoRev])
  | cons c rev ih =>
    intro rest n u h
    rw [sepGoRev] at h
    cases ht : sepTryNum (c :: rev).reverse rest with
    | some p =>
      rw [ht] at h
      dsimp only at h
      injection h with h
      subst h
      have hn := sepTryNum_num ht
      subst hn
      constructor
      · simp
      · exact List.prefix_refl _
    | none =>
      rw [ht] at h
      dsimp only at h
      obtain ⟨hne, hpre⟩ := ih (c :: rest) n u h
      refine ⟨hne, hpre.trans ?_⟩
      rw [List.reverse_cons]
      exact List.prefix_append _ _

theorem sepMatch_pre {s : String} {n u : String}
    (h : sepMatch s = some (n, u)) :
    n.data ≠ [] ∧ n.data <+: s.data.takeWhile isNumChar := by
  rw [sepMatch] at h
  have := sepGoRev_pre _ _ n u h
  rwa [List.reverse_reverse] at this

theorem digit_not_space {c : Char} (h : c.isDigit = true) :
    isPySpace c = false := by
  cases hsp : isPySpace c
  · rfl
  · exfalso
    have hc : c ∈ [' ', '\t', '\n', '\r', '\x0b', '\x0c'] := by
      simpa [isPySpace] using hsp
    simp only [List.mem_cons, List.not_mem_nil, or_false] at hc
    rcases hc with rfl | rfl | rfl | rfl | rfl | rfl <;> exact absurd h (by decide)

theorem dropWhile_no {p : Char → Bool} :
    ∀ l : List Char, (∀ c ∈ l, p c = false) → l.dropWhile p = l := by
  intro l h
  cases l with
  | nil => rfl
  | cons x xs =>
    rw [List.dropWhile_cons, h x (List.mem_cons_self _ _)]
    simp

theorem pyStrip_no_space {l : List Char} (h : ∀ c ∈ l, isPySpace c = false) :
    pyStrip l = l := by
  rw [pyStrip, dropWhile_no l h,
    dropWhile_no l.reverse (fun c hc => h c (List.mem_reverse.mp hc)),
    List.reverse_reverse]

theorem digit_not_sign {c : Char} (h : c.isDigit = true) :
    ¬ (some c = some '+' ∨ some c = some '-') := by
  rintro (hc | hc) <;> (injection hc with hc; subst hc; exact absurd h (by decide))

theorem pyFloatParts_digits {ds : List Char} (hds : ∀ c ∈ ds, c.isDigit)
    (hne : ds ≠ []) : (pyFloatParts ⟨ds⟩).isSome = true := by
  rw [pyFloatParts]
  have hstrip : pyStrip (⟨ds⟩ : String).data = ds :=
    pyStrip_no_space (fun c hc => digit_not_space (hds c hc))
  rw [hstrip]
  cases ds with
  | nil => exact absurd rfl hne
  | cons d ds' =>
    have hd : d.isDigit = true := hds d (List.mem_cons_self _ _)
    dsimp only
    simp only [List.head?_cons]
    rw [if_neg (digit_not_sign hd)]
    dsimp only
    have hdrop : (d :: ds').dropWhile Char.isDigit = [] :=
      List.dropWhile_eq_nil_iff.mpr (fun c hc => hds c hc)
    simp [hdrop]

theorem pyFloatParts_dot {ds fs : List Char} (hds : ∀ c ∈ ds, c.isDigit)
    (hne : ds ≠ []) (hfs : ∀ c ∈ fs, c.isDigit) :
    (pyFloatParts ⟨ds ++ '.' :: fs⟩).isSome = true := by
  rw [pyFloatParts]
  have hall : ∀ c ∈ ds ++ '.' :: fs, isPySpace c = false := by
    intro c hc
    rcases List.mem_append.mp hc with h | h
    · exact digit_not_space (hds c h)
    · rcases List.mem_cons.mp h with rfl | h
      · decide
      · exact digit_not_space (hfs c h)
  have hstrip : pyStrip (⟨ds ++ '.' :: fs⟩ : String).data = ds ++ '.' :: fs :=
    pyStrip_no_space hall
  rw [hstrip]
  cases hd : ds with
  | nil => exact absurd hd hne
  | cons d ds' =>
    subst hd
    have hdig : d.isDigit = true := hds d (List.mem_cons_self _ _)
    rw [List.cons_append]
    dsimp only
    simp only [List.head?_cons]
    rw [if_neg (digit_not_sign hdig)]
    dsimp only
    have hdrop : (d :: (ds' ++ '.' :: fs)).dropWhile Char.isDigit = '.' :: fs := by
      rw [show d :: (ds' ++ '.' :: fs) = (d :: ds') ++ '.' :: fs from rfl]
      exact dropWhile_append_cons (fun c hc => hds c hc) (by decide)
    rw [hdrop]
    have hfr : fs.dropWhile Char.isDigit = [] :=
      List.dropWhile_eq_nil_iff.mpr (fun c hc => hfs c hc)
    have htk : (d :: (ds' ++ '.' :: fs)).takeWhile Char.isDigit = d :: ds' := by
      rw [show d :: (ds' ++ '.' :: fs) = (d :: ds') ++ '.' :: fs from rfl]
      exact takeWhile_append_cons (fun c hc => hds c hc) (by decide)
    simp [hfr, htk]

theorem pyFloat_digits_ne {ds : List Char} (hds : ∀ c ∈ ds, c.isDigit)
    (hne : ds ≠ []) : pyFloat ⟨ds⟩ ≠ none := by
  rw [pyFloat]
  have := pyFloatParts_digits hds hne
  cases hp : pyFloatParts ⟨ds⟩ with
  | none => rw [hp] at this; exact absurd this (by simp)
  | some v => simp

theorem pyFloat_dot_ne {ds fs : List Char} (hds : ∀ c ∈ ds, c.isDigit)
    (hne : ds ≠ []) (hfs : ∀ c ∈ fs, c.isDigit) :
    pyFloat ⟨ds ++ '.' :: fs⟩ ≠ none := by
  rw [pyFloat]
  have := pyFloatParts_dot hds hne hfs
  cases hp : pyFloatParts ⟨ds ++ '.' :: fs⟩ with
  | none => rw [hp] at this; exact absurd this (by simp)
  | some v => simp

/-- Every nonempty prefix of a number string of the extractor's shape is a
string Python `float` parses. -/
theorem numShape_prefix_parses {s : String} (h : NumShape s) :
    ∀ pre : List Char, pre ≠ [] → pre <+: s.data → pyFloat ⟨pre⟩ ≠ none := by
  obtain ⟨ds, frac, heq, hdsne, hds, hfrac⟩ := h
  intro pre hpre hprefix
  rw [heq] at hprefix
  rcases prefix_append_cases ds frac pre hprefix with hp | ⟨q, rfl, hq⟩
  · exact pyFloat_digits_ne (fun c hc => hds c (hp.subset hc)) hpre
  · rcases hfrac with rfl | ⟨fs, rfl, hfsne, hfs⟩
    · have hq0 : q = [] := List.prefix_nil.mp hq
      subst hq0
      rw [List.append_nil]
      rw [List.append_nil] at hpre
      exact pyFloat_digits_ne hds hpre
    · cases q with
      | nil =>
        rw [List.append_nil]
        exact pyFloat_digits_ne hds hdsne
      | cons q0 qs =>
        obtain ⟨rfl, hqs⟩ := List.cons_prefix_cons.mp hq
        exact pyFloat_dot_ne hds hdsne (fun c hc => hfs c (hqs.subset hc))

theorem procCats_some :
    ∀ (cats : List (String × List String)) (cv : Categorized)
      (nu : String × String), pyFloat nu.1 ≠ none →
      (∀ p ∈ cats, nu.2 ∈ p.2 →
        (conversion_factors_to_smallest.lookup nu.2).isSome = true) →
      ∃ cv2, procCats cats cv nu = some cv2 := by
  intro cats
  induction cats with
  | nil => intro cv nu _ _; exact ⟨cv, rfl⟩
  | cons p rest ih =>
    intro cv nu hv hf
    obtain ⟨cat, uset⟩ := p
    by_cases hmem : nu.2 ∈ uset
    · obtain ⟨v, hv2⟩ := Option.ne_none_iff_exists'.mp hv
      have hfs := hf (cat, uset) (List.mem_cons_self _ _) hmem
      obtain ⟨f, hf2⟩ := Option.isSome_iff_exists.mp hfs
      obtain ⟨n, u⟩ := nu
      rw [procCats_mem hmem hv2 hf2]
      exact ih _ _ hv (fun q hq => hf q (List.mem_cons_of_mem _ hq))
    · rw [procCats_not_mem hmem]
      exact ih cv nu hv (fun q hq => hf q (List.mem_cons_of_mem _ hq))

theorem catGo_some :
    ∀ (pairs : List (String × String)) (cv : Categorized),
      (∀ nu ∈ pairs, pyFloat nu.1 ≠ none) →
      ∃ cv2, catGo pairs cv = some cv2 := by
  intro pairs
  induction pairs with
  | nil => intro cv _; exact ⟨cv, rfl⟩
  | cons nu rest ih =>
    intro cv hall
    obtain ⟨cv1, hcv1⟩ := procCats_some unit_categories cv nu
      (hall nu (List.mem_cons_self _ _))
      (fun p hp hmem => factor_present p hp nu.2 hmem)
    rw [catGo, hcv1]
    exact ih cv1 (fun q hq => hall q (List.mem_cons_of_mem _ hq))

/-- C8: for every input text and entity name the whole pipeline terminates
with a value — possibly the absence value — and never raises: the modelled
exception (`none` of the outer Option) is unreachable. -/
theorem C8_no_crash (text entity : String) :
    (pipeline text entity).isSome = true := by
  have hnum : ∀ nu ∈ ((convert_to_full_unit text).2.1.zip
      (convert_to_full_unit text).2.2), pyFloat nu.1 ≠ none := by
    intro nu hnu
    have hn1 : nu.1 ∈ (convert_to_full_unit text).2.1 :=
      (List.of_mem_zip hnu).1
    have hn2 : nu.1 ∈ ((extract_numbers_with_units text).filterMap
        sepMatch).map Prod.fst := hn1
    obtain ⟨pr, hpr, hfst⟩ := List.mem_map.mp hn2
    obtain ⟨item, hitem, hsepm⟩ := List.mem_filterMap.mp hpr
    rw [extract_numbers_with_units] at hitem
    obtain ⟨p, hp, hmap⟩ := List.mem_filterMap.mp hitem
    cases hext : extractOne95 p.2 all_units with
    | none => rw [hext] at hmap; exact absurd hmap (by simp)
    | some mu =>
      rw [hext] at hmap
      rw [Option.map_some'] at hmap
      injection hmap with hmap
      rw [scan] at hp
      obtain ⟨hns, hto1, hto2⟩ := scanF_shape _ _ p hp
      obtain ⟨hprne, hprpre⟩ := sepMatch_pre hsepm
      have hitemdata : item.data.takeWhile isNumChar = p.1.data := by
        rw [← hmap, str_data_append, str_data_append, List.append_assoc]
        rw [show (" " : String).data ++ mu.data = ' ' :: mu.data from rfl]
        exact takeWhile_append_cons (numShape_numChar hns) (by decide)
      rw [hitemdata] at hprpre
      have hparse := numShape_prefix_parses hns pr.1.data hprne hprpre
      rw [← hfst]
      exact hparse
  rw [pipeline]
  obtain ⟨cv, hcv⟩ := catGo_some
    ((convert_to_full_unit text).2.1.zip (convert_to_full_unit text).2.2)
    emptyCategorized hnum
  rw [show categorize_values (convert_to_full_unit text).2.1
      (convert_to_full_unit text).2.2
      = catGo ((convert_to_full_unit text).2.1.zip
          (convert_to_full_unit text).2.2) emptyCategorized from rfl, hcv]
  rfl

end OCRPipeline
